import Mathlib

/-!
Verification of the ansible-soap repository (SOAP client toolkit for an
automation framework) against its natural-language specification.

The development shallowly embeds the Python sources:

* an executable model of the XML handling done through
  `xml.etree.ElementTree.fromstring` (raw parsing over character lists,
  followed by namespace resolution to qualified names), restricted to the
  XML subset exercised by this code base: elements, attributes,
  double-quoted attribute values, character data, namespace declarations
  and a leading XML/processing-instruction header.  Entity references,
  comments, CDATA sections and DOCTYPEs are not modelled; none of the
  inputs handled by the claims use them;
* the domain entities (`SoapRequest`, `SoapResponse`, `Endpoint`,
  `SoapAction`), value objects (`SoapEnvelope`, both `XmlBody` variants),
  the HTTP repository (`HttpSoapRepository`), the domain service
  (`SoapService` with cache and retry), the use-case layer
  (`SendSoapRequestUseCase`, `BatchSendUseCase`) and the Ansible module
  boundary of `soap_request`.

Python-specific behaviour is modelled explicitly: truthiness of strings
and options, `or`-chains, dictionary update order, `str.strip`, natural
attribute lookup failure (`AttributeError`), and exception propagation
via `Except`.
-/

namespace AnsibleSoap

/-! ## Python-flavoured character/string helpers -/

/-- Python `\s` for the ASCII range (`str.strip`, regex `\s`). -/
def pySpace (c : Char) : Bool :=
  c = ' ' || c = '\t' || c = '\n' || c = '\r' || c = '\x0b' || c = '\x0c'

/-- Characters accepted in XML names by the model (letters, digits and
`.`, `-`, `_`, `:`), matching the names occurring in this code base. -/
def isNameChar (c : Char) : Bool :=
  c.isAlphanum || c = '.' || c = '-' || c = '_' || c = ':'

/-- `str.strip()` on a character list. -/
def stripChars (cs : List Char) : List Char :=
  ((cs.dropWhile pySpace).reverse.dropWhile pySpace).reverse

/-- `str.strip()`. -/
def pyStrip (s : String) : String :=
  String.mk (stripChars s.data)

/-- Python string truthiness of an optional string (`if x:`). -/
def pyTruthy : Option String → Bool
  | none => false
  | some s => s ≠ ""

/-- Python `a or b` on optional strings (with string truthiness). -/
def pyOr (a b : Option String) : Option String :=
  if pyTruthy a then a else b

/-- `sub in s` on character lists. -/
def listContains (hay sub : List Char) : Bool :=
  match hay with
  | [] => sub = []
  | _ :: t => sub.isPrefixOf hay || listContains t sub

/-- Python `sub in s` for strings. -/
def strContains (hay sub : String) : Bool :=
  listContains hay.data sub.data

/-- Python `str.lower()` (ASCII). -/
def pyLower (s : String) : String :=
  String.mk (s.data.map Char.toLower)

/-! ## Raw XML trees and the parsing model of `ElementTree.fromstring`

`RawXml` is the lexical tree: tags and attribute names are kept exactly
as written (possibly with a namespace `p:` before the local name). -/

inductive RawXml : Type where
  | elem (tag : List Char) (attrs : List (List Char × List Char))
      (children : List RawXml)
  | text (s : List Char)
  deriving Repr

/-- Longest prefix of XML name characters, with the remaining input. -/
def takeName : List Char → List Char × List Char
  | [] => ([], [])
  | c :: cs =>
    if isNameChar c then
      let p := takeName cs
      (c :: p.1, p.2)
    else ([], c :: cs)

/-- Characters up to (excluding) a stop character, with the rest. -/
def takeTill (stop : Char) : List Char → List Char × List Char
  | [] => ([], [])
  | c :: cs =>
    if c = stop then ([], c :: cs)
    else
      let p := takeTill stop cs
      (c :: p.1, p.2)

/-- Skip ASCII whitespace. -/
def skipWs (cs : List Char) : List Char :=
  cs.dropWhile pySpace

mutual

/-- Parse one element `<name attrs>children</name>` or `<name attrs/>`. -/
def pElement : Nat → List Char → Option (RawXml × List Char)
  | 0, _ => none
  | fuel + 1, cs =>
    match cs with
    | '<' :: cs1 =>
      let pn := takeName cs1
      if pn.1 = [] then none else
      match pAttrs fuel pn.2 with
      | none => none
      | some (attrs, r2) =>
        match r2 with
        | '/' :: '>' :: r3 => some (.elem pn.1 attrs [], r3)
        | '>' :: r3 =>
          match pContent fuel r3 with
          | none => none
          | some (children, r4) =>
            match r4 with
            | '<' :: '/' :: r5 =>
              let pc := takeName r5
              if pc.1 = pn.1 then
                match skipWs pc.2 with
                | '>' :: r7 => some (.elem pn.1 attrs children, r7)
                | _ => none
              else none
            | _ => none
        | _ => none
    | _ => none

/-- Parse element content up to a closing tag `</`. -/
def pContent : Nat → List Char → Option (List RawXml × List Char)
  | 0, _ => none
  | fuel + 1, cs =>
    match cs with
    | [] => none
    | '<' :: '/' :: _ => some ([], cs)
    | '<' :: _ =>
      match pElement fuel cs with
      | none => none
      | some (e, r) =>
        match pContent fuel r with
        | none => none
        | some (es, r2) => some (e :: es, r2)
    | _ :: _ =>
      let pt := takeTill '<' cs
      match pContent fuel pt.2 with
      | none => none
      | some (es, r2) => some (.text pt.1 :: es, r2)

/-- Parse attributes: `name="value"` pairs up to `/` or `>`. -/
def pAttrs : Nat → List Char → Option (List (List Char × List Char) × List Char)
  | 0, _ => none
  | fuel + 1, cs =>
    let cs1 := skipWs cs
    match cs1 with
    | '/' :: _ => some ([], cs1)
    | '>' :: _ => some ([], cs1)
    | _ =>
      let pn := takeName cs1
      if pn.1 = [] then none else
      match pn.2 with
      | '=' :: '"' :: r2 =>
        let pv := takeTill '"' r2
        match pv.2 with
        | '"' :: r4 =>
          match pAttrs fuel r4 with
          | none => none
          | some (more, r5) => some ((pn.1, pv.1) :: more, r5)
        | _ => none
      | _ => none

end

/-- Skip past the end `?>` of an XML declaration / processing instruction. -/
def dropToDeclEnd : List Char → Option (List Char)
  | [] => none
  | '?' :: '>' :: r => some r
  | _ :: r => dropToDeclEnd r

/-- Strip a leading XML declaration / processing instruction, if any. -/
def stripDecl : List Char → Option (List Char)
  | '<' :: '?' :: r => dropToDeclEnd r
  | cs => some cs

/-- Model of the raw side of `ElementTree.fromstring`: an optional leading
declaration, optional whitespace, exactly one root element, optional
trailing whitespace. -/
def pDocumentRaw (cs : List Char) : Option RawXml := do
  let cs0 ← stripDecl cs
  let cs1 := skipWs cs0
  let (t, rest) ← pElement (cs1.length + 1) cs1
  if skipWs rest = [] then some t else none

/-! ## Namespace resolution (ElementTree qualified tags)

`ElementTree` resolves `p:local` tags against in-scope `xmlns`
declarations; a qualified tag is a pair of namespace URI and local name
(ElementTree's Clark notation).  Unbound prefixes are a parse error. -/

inductive Xml : Type where
  | elem (ns : Option String) (name : String)
      (attrs : List (String × String)) (children : List Xml)
  | text (s : String)
  deriving Repr

/-- First binding of a namespace prefix (innermost scope first). -/
def lookupNs (env : List (String × String)) (p : String) : Option String :=
  match env with
  | [] => none
  | (q, u) :: rest => if q = p then some u else lookupNs rest p

/-- Namespace declarations among an attribute list: `xmlns:p="u"`. -/
def nsDecls (attrs : List (List Char × List Char)) : List (String × String) :=
  attrs.filterMap fun a =>
    match a.1 with
    | 'x' :: 'm' :: 'l' :: 'n' :: 's' :: ':' :: p =>
      some (String.mk p, String.mk a.2)
    | _ => none

/-- New default namespace, if this element carries `xmlns="u"`
(`xmlns=""` resets to no default namespace). -/
def nsDefault (attrs : List (List Char × List Char)) : Option (Option String) :=
  match attrs.find? (fun a => a.1 = ['x', 'm', 'l', 'n', 's']) with
  | none => none
  | some a => some (if a.2 = [] then none else some (String.mk a.2))

/-- Attributes that are not namespace declarations, as strings.
(Namespace declarations are not part of ElementTree's `attrib`;
attribute-name prefixes are kept verbatim, nothing in the modelled code
reads them.) -/
def plainAttrs (attrs : List (List Char × List Char)) : List (String × String) :=
  (attrs.filter fun a =>
      ¬(a.1 = ['x', 'm', 'l', 'n', 's'] ||
        (['x', 'm', 'l', 'n', 's', ':'].isPrefixOf a.1))).map
    fun a => (String.mk a.1, String.mk a.2)

/-- Split a raw tag at the first `:` into prefix and local part. -/
def splitTag (tag : List Char) : Option (List Char) × List Char :=
  if tag.contains ':' then
    let p := takeTill ':' tag
    (some p.1, p.2.drop 1)
  else (none, tag)

mutual

/-- Resolve raw tags to qualified names under a prefix environment and a
default namespace; fails on unbound prefixes (as `fromstring` does). -/
def resolveR (env : List (String × String)) (defNs : Option String) :
    RawXml → Option Xml
  | .text s => some (.text (String.mk s))
  | .elem tag attrs children =>
    let env' := nsDecls attrs ++ env
    let defNs' := match nsDefault attrs with
      | some d => d
      | none => defNs
    let st := splitTag tag
    match st.1 with
    | some p =>
      match lookupNs env' (String.mk p) with
      | none => none
      | some uri =>
        match resolveList env' defNs' children with
        | none => none
        | some cs => some (.elem (some uri) (String.mk st.2) (plainAttrs attrs) cs)
    | none =>
      match resolveList env' defNs' children with
      | none => none
      | some cs => some (.elem defNs' (String.mk st.2) (plainAttrs attrs) cs)

/-- Resolve a list of children. -/
def resolveList (env : List (String × String)) (defNs : Option String) :
    List RawXml → Option (List Xml)
  | [] => some []
  | c :: rest =>
    match resolveR env defNs c with
    | none => none
    | some x =>
      match resolveList env defNs rest with
      | none => none
      | some xs => some (x :: xs)

end

/-- Model of `xml.etree.ElementTree.fromstring`: raw parse, then
namespace resolution.  `none` corresponds to `ET.ParseError`. -/
def etFromstring (s : String) : Option Xml :=
  match pDocumentRaw s.data with
  | none => none
  | some raw => resolveR [] none raw

/-- `XmlParser.validate_xml`: `True` iff `ET.fromstring` succeeds. -/
def validateXml (s : String) : Bool :=
  (etFromstring s).isSome

/-! ## Serialisation of raw trees

Used to express which strings are plain serialised XML elements (the
amended envelope-validity property quantifies over these). -/

/-- Serialise attributes as ` name="value"`. -/
def serAttrs (attrs : List (List Char × List Char)) : List Char :=
  attrs.foldr (fun a acc => ' ' :: a.1 ++ '=' :: '"' :: a.2 ++ '"' :: acc) []

mutual

/-- Serialise one raw element (always in expanded `<t>…</t>` form). -/
def serE : RawXml → List Char
  | .elem tag attrs children =>
    '<' :: tag ++ serAttrs attrs ++ '>' :: serList children ++
      '<' :: '/' :: tag ++ ['>']
  | .text s => s

/-- Serialise a list of raw nodes. -/
def serList : List RawXml → List Char
  | [] => []
  | c :: rest => serE c ++ serList rest

end

/-! ## The `XmlParser` adapter operations used by the repository

`find_element_text` is only ever called with descendant paths of the two
shapes `.//Tag` and `.//{uri}Tag`; the model implements exactly this
search (first match in document order, excluding the context node). -/

/-- SOAP 1.1 envelope namespace. -/
def soap11ns : String := "http://schemas.xmlsoap.org/soap/envelope/"

/-- SOAP 1.2 envelope namespace. -/
def soap12ns : String := "http://www.w3.org/2003/05/soap-envelope"

mutual

/-- First element with the given qualified name in a node's own subtree
(the node itself first, then its descendants in document order). -/
def findFirstIn (ns : Option String) (ln : String) : Xml → Option Xml
  | .text _ => none
  | .elem ns' n' a ch =>
    if ns' = ns && n' = ln then some (.elem ns' n' a ch)
    else findInForest ns ln ch

/-- First element with the given qualified name in a forest
(document order). -/
def findInForest (ns : Option String) (ln : String) : List Xml → Option Xml
  | [] => none
  | x :: rest =>
    match findFirstIn ns ln x with
    | some e => some e
    | none => findInForest ns ln rest

end

/-- `element.find(".//Tag")` / `element.find(".//{uri}Tag")`: first
matching descendant of the context element. -/
def findDesc (ns : Option String) (ln : String) : Xml → Option Xml
  | .elem _ _ _ ch => findInForest ns ln ch
  | .text _ => none

/-- `element.text`: the character data between the start tag and the
first child (none when the element starts with a child or is empty). -/
def elemText : Xml → Option String
  | .elem _ _ _ (.text s :: _) => some s
  | _ => none

/-- `XmlParser.find_element_text(element, ".//Tag")` with default `None`:
returns the stripped text if the element is found and its text is truthy,
else the default. -/
def findElementText (ns : Option String) (ln : String) (root : Xml) :
    Option String :=
  match findDesc ns ln root with
  | some e =>
    match elemText e with
    | some t => if t ≠ "" then some (pyStrip t) else none
    | none => none
  | none => none

/-! ## Domain entities: `SoapResponse`, `SoapRequest`, `Endpoint`,
`SoapAction` (plus `HttpResponse` from the HTTP client adapter) -/

/-- `ResponseStatus` enum of `soap_response.py`. -/
inductive ResponseStatus : Type where
  | success | soapFault | httpError | networkError | timeout
  | failure | error | parsingError | authError
  deriving Repr, DecidableEq

/-- The enum's `.value` strings. -/
def ResponseStatus.value : ResponseStatus → String
  | .success => "success"
  | .soapFault => "soap_fault"
  | .httpError => "http_error"
  | .networkError => "network_error"
  | .timeout => "timeout"
  | .failure => "failure"
  | .error => "error"
  | .parsingError => "parsing_error"
  | .authError => "auth_error"

/-- Values appearing in an Ansible result dictionary. -/
inductive RVal : Type where
  | vBool (b : Bool)
  | vStr (s : String)
  | vInt (n : Int)
  | vNat (n : Nat)
  | vNone
  | vDict (entries : List (String × RVal))
  deriving Repr

/-- A Python `Optional[int]` as a result value. -/
def optIntR : Option Int → RVal
  | some n => .vInt n
  | none => .vNone

/-- A Python `Optional[str]` as a result value. -/
def optStrR : Option String → RVal
  | some s => .vStr s
  | none => .vNone

/-- Python `f"{x}"` on an optional string (`None` renders as `"None"`). -/
def pyShowOptStr : Option String → String
  | some s => s
  | none => "None"

/-- `SoapResponse` entity (`module_utils` tree).  `received_at` is a
timestamp in seconds (`datetime.now()` at construction); `response_time_ms`
is carried opaquely (the modelled code never computes with it). -/
structure SoapResponse : Type where
  requestId : String
  status : ResponseStatus
  statusCode : Option Int := none
  body : Option String := none
  headers : List (String × String) := []
  parsedBody : Option (List (String × String)) := none
  faultCode : Option String := none
  faultString : Option String := none
  faultDetail : Option String := none
  errorMessage : Option String := none
  responseTimeMs : Option Nat := none
  receivedAt : Nat := 0
  deriving Repr, DecidableEq

/-- `__post_init__` of `SoapResponse`: `request_id` is required. -/
def soapResponseValid (r : SoapResponse) : Bool :=
  r.requestId ≠ ""

/-- `SoapResponse.is_successful`: status is SUCCESS and
`200 <= (status_code or 0) < 300`. -/
def SoapResponse.isSuccessful (r : SoapResponse) : Bool :=
  r.status = ResponseStatus.success &&
    (200 ≤ r.statusCode.getD 0 && r.statusCode.getD 0 < 300)

/-- `SoapResponse.has_soap_fault`. -/
def SoapResponse.hasSoapFault (r : SoapResponse) : Bool :=
  r.status = ResponseStatus.soapFault

/-- `SoapResponse.get_fault_info` (only called when a fault is present). -/
def SoapResponse.getFaultInfo (r : SoapResponse) : List (String × RVal) :=
  [("code", optStrR r.faultCode),
   ("string", optStrR r.faultString),
   ("detail", optStrR r.faultDetail)]

/-- `SoapResponse.get_error_summary`. -/
def SoapResponse.getErrorSummary (r : SoapResponse) : String :=
  if r.isSuccessful then "Success"
  else if r.hasSoapFault then
    "SOAP Fault: " ++ pyShowOptStr r.faultCode ++ " - " ++
      pyShowOptStr r.faultString
  else if pyTruthy r.errorMessage then
    r.status.value ++ ": " ++ r.errorMessage.getD ""
  else "Error: " ++ r.status.value

/-- `SoapResponse.to_ansible_result` (an ordered dict, modelled as an
association list in insertion order). -/
def SoapResponse.toAnsibleResult (r : SoapResponse) : List (String × RVal) :=
  let base : List (String × RVal) :=
    [("changed", .vBool false),
     ("request_id", .vStr r.requestId),
     ("status", .vStr r.status.value),
     ("status_code", optIntR r.statusCode),
     ("success", .vBool r.isSuccessful)]
  let base := base ++
    (match r.responseTimeMs with
     | some t => [("response_time_ms", RVal.vNat t)]
     | none => [])
  if r.isSuccessful then
    base ++ [("body", optStrR r.body)] ++
      (match r.parsedBody with
       | some (p :: ps) =>
         [("parsed_body", RVal.vDict ((p :: ps).map fun e => (e.1, RVal.vStr e.2)))]
       | _ => [])
  else
    base ++ [("failed", .vBool true), ("msg", .vStr r.getErrorSummary)] ++
      (if r.hasSoapFault then [("fault", RVal.vDict r.getFaultInfo)] else []) ++
      (if pyTruthy r.errorMessage then [("error", optStrR r.errorMessage)] else [])

/-- `HttpResponse` of the HTTP client adapter (`elapsed_ms` carried
opaquely as in `SoapResponse`). -/
structure HttpResponse : Type where
  statusCode : Int
  body : String
  headers : List (String × String) := []
  elapsedMs : Nat := 0
  deriving Repr, DecidableEq

/-- `HttpResponse.is_successful`. -/
def HttpResponse.isSuccessful (hr : HttpResponse) : Bool :=
  200 ≤ hr.statusCode && hr.statusCode < 300

/-- `dict.setdefault(k, v)` on an association list. -/
def setDefault (hs : List (String × String)) (k v : String) :
    List (String × String) :=
  if (hs.find? fun e => e.1 = k).isSome then hs else hs ++ [(k, v)]

/-- `SoapRequest` entity (`plugins` tree). -/
structure SoapRequest : Type where
  id : String
  endpointUrl : String
  soapAction : String
  body : String
  headers : List (String × String) := []
  nspace : Option String := none
  soapVersion : String := "1.1"
  timeout : Int := 30
  createdAt : Nat := 0
  deriving Repr, DecidableEq

/-- `SoapRequest._ensure_soap_headers`. -/
def ensureSoapHeaders (version action : String)
    (hs : List (String × String)) : List (String × String) :=
  if version = "1.1" then
    let hs := setDefault hs "Content-Type" "text/xml; charset=utf-8"
    if action ≠ "" then
      setDefault hs "SOAPAction" ("\"" ++ action ++ "\"")
    else hs
  else if version = "1.2" then
    let ct :=
      if action ≠ "" then
        "application/soap+xml; charset=utf-8; action=\"" ++ action ++ "\""
      else "application/soap+xml; charset=utf-8"
    setDefault hs "Content-Type" ct
  else hs

/-- `SoapRequest.__post_init__`: validation plus header defaulting
(`ValueError` messages on the error side). -/
def SoapRequest.make (id endpointUrl soapAction body : String)
    (headers : List (String × String)) (nspace : Option String)
    (soapVersion : String) (timeout : Int) (createdAt : Nat) :
    Except String SoapRequest :=
  if endpointUrl = "" then .error "endpoint_url ist erforderlich"
  else if body = "" then .error "body ist erforderlich"
  else if soapVersion ≠ "1.1" && soapVersion ≠ "1.2" then
    .error "soap_version muss '1.1' oder '1.2' sein"
  else if timeout ≤ 0 then .error "timeout muss größer als 0 sein"
  else
    .ok { id, endpointUrl, soapAction, body,
          headers := ensureSoapHeaders soapVersion soapAction headers,
          nspace, soapVersion, timeout, createdAt }

/-- `Endpoint` entity (`module_utils` tree).  Construction-time URL/auth
validation is not modelled (no settled claim depends on it); the fields
and operations the service layer reads are.  Note the entity defines
`default_soap_version` — there is no `soap_version` attribute. -/
structure Endpoint : Type where
  url : String
  name : Option String := none
  authType : Option String := none
  username : Option String := none
  password : Option String := none
  certPath : Option String := none
  keyPath : Option String := none
  verifySsl : Bool := true
  defaultTimeout : Int := 30
  defaultSoapVersion : String := "1.1"
  supportedOperations : List String := []
  deriving Repr, DecidableEq

/-- `Endpoint.supports_operation`: empty allow-list means allow all. -/
def Endpoint.supportsOperation (e : Endpoint) (op : String) : Bool :=
  if e.supportedOperations = [] then true
  else e.supportedOperations.contains op

/-- Python attribute lookup of `soap_version` on an `Endpoint` instance:
the dataclass defines `default_soap_version` but no `soap_version`
attribute, so the lookup never produces a value (it raises
`AttributeError` at runtime). -/
def Endpoint.soapVersionAttr (_ : Endpoint) : Option String := none

/-- `SoapAction` value object. -/
structure SoapAction : Type where
  value : String
  nspace : Option String := none
  deriving Repr, DecidableEq

/-- `SoapAction.__post_init__`: non-empty, no whitespace. -/
def SoapAction.make (value : String) (nspace : Option String) :
    Except String SoapAction :=
  if value = "" then .error "SOAP Action darf nicht leer sein"
  else if value.data.any pySpace then
    .error ("SOAP Action darf keine Leerzeichen enthalten: " ++ value)
  else .ok { value, nspace }

/-! ## `HttpSoapRepository` (plugins tree): response classification and
the `send` operation -/

/-- Domain-level repository errors (`soap_repository.py`); all of them
subclass `SoapRepositoryError`. -/
inductive RepoErr : Type where
  | endpointNotReachable (url reason : String)
  | invalidResponse (msg : String) (rawResponse : Option String)
  | authError (msg : String)
  | generic (msg : String)
  deriving Repr, DecidableEq

/-- `str(e)` of a repository error. -/
def RepoErr.message : RepoErr → String
  | .endpointNotReachable url reason =>
    "Endpoint " ++ url ++ " nicht erreichbar: " ++ reason
  | .invalidResponse m _ => m
  | .authError m => m
  | .generic m => m

/-- `HttpSoapRepository._contains_soap_fault`: note that the existence
check goes through `find_element_text`, which returns the *text* of the
found element (stripped, `None` when absent or empty), chained with
Python `or`. -/
def containsSoapFault (xmlBody : String) : Bool :=
  match etFromstring xmlBody with
  | none => false
  | some el =>
    let fault :=
      pyOr (pyOr (findElementText none "Fault" el)
                 (findElementText (some soap11ns) "Fault" el))
           (findElementText (some soap12ns) "Fault" el)
    fault ≠ none

/-- `HttpSoapRepository._extract_fault_string`. -/
def extractFaultString (xmlBody : String) : String :=
  match etFromstring xmlBody with
  | none => "SOAP Fault (Details nicht verfügbar)"
  | some el =>
    let fs :=
      pyOr (pyOr (findElementText none "faultstring" el)
                 (findElementText (some soap11ns) "faultstring" el))
           (findElementText (some soap12ns) "Reason" el)
    if pyTruthy fs then fs.getD "" else "Unbekannter SOAP Fault"

/-- `HttpSoapRepository._create_soap_response`: the classification
decision table.  `now` stands for the `datetime.now()` default of
`received_at`. -/
def createSoapResponse (request : SoapRequest) (hr : HttpResponse)
    (now : Nat) : SoapResponse :=
  let sc :=
    if hr.statusCode = 401 || hr.statusCode = 403 then
      (ResponseStatus.authError, some "Authentifizierung fehlgeschlagen")
    else if hr.statusCode = 500 then
      if containsSoapFault hr.body then
        (ResponseStatus.soapFault, some (extractFaultString hr.body))
      else (ResponseStatus.error, some "Server-Fehler")
    else if hr.isSuccessful then (ResponseStatus.success, none)
    else (ResponseStatus.error, some ("HTTP " ++ toString hr.statusCode))
  { requestId := request.id
    status := sc.1
    statusCode := some hr.statusCode
    body := some hr.body
    headers := hr.headers
    responseTimeMs := some hr.elapsedMs
    errorMessage := sc.2
    receivedAt := now }

/-- Outcome of the HTTP client call inside `send`: either a response or
an `HttpClientError` with message `msg`. -/
inductive HttpOutcome : Type where
  | response (hr : HttpResponse)
  | clientError (msg : String)
  deriving Repr

/-- `HttpSoapRepository.send`: validate the body as XML (hard failure
`InvalidResponseError` before any classification), then classify; map
`HttpClientError` to domain errors by message content. -/
def send (request : SoapRequest) (out : HttpOutcome) (now : Nat) :
    Except RepoErr SoapResponse :=
  match out with
  | .response hr =>
    if ¬ validateXml hr.body then
      .error (.invalidResponse "Response ist kein gültiges XML" (some hr.body))
    else .ok (createSoapResponse request hr now)
  | .clientError msg =>
    if strContains (pyLower msg) "timeout" then
      .error (.endpointNotReachable request.endpointUrl
        ("Timeout nach " ++ toString request.timeout ++ "s"))
    else if strContains (pyLower msg) "ssl" then
      .error (.endpointNotReachable request.endpointUrl ("SSL-Fehler: " ++ msg))
    else if strContains (pyLower msg) "connection" then
      .error (.endpointNotReachable request.endpointUrl
        ("Verbindungsfehler: " ++ msg))
    else .error (.generic ("HTTP-Fehler: " ++ msg))

/-- Python `sep.join(parts)`. -/
def pyJoin (sep : String) : List String → String
  | [] => ""
  | [p] => p
  | p :: q :: rest => p ++ sep ++ pyJoin sep (q :: rest)

/-! ## `SoapEnvelope` value object (`module_utils` tree) -/

/-- SOAP version enum. -/
inductive SoapVersion : Type where
  | v11
  | v12
  deriving Repr, DecidableEq

/-- `SoapVersion.namespace` property. -/
def SoapVersion.nsUri : SoapVersion → String
  | .v11 => soap11ns
  | .v12 => soap12ns

/-- `SoapVersion.prefix` property (always `soap`). -/
def SoapVersion.pfx : SoapVersion → String
  | _ => "soap"

/-- The `.value` string of the version enum. -/
def SoapVersion.value : SoapVersion → String
  | .v11 => "1.1"
  | .v12 => "1.2"

/-- `SoapEnvelope` value object. -/
structure SoapEnvelope : Type where
  bodyContent : String
  version : SoapVersion := .v11
  headerContent : Option String := none
  namespaceDeclarations : Option (List (String × String)) := none
  deriving Repr, DecidableEq

/-- `SoapEnvelope.from_body`, with the `__post_init__` `ValueError`s on
the error side. -/
def SoapEnvelope.fromBody (bodyContent : String) (version : SoapVersion)
    (namespaceDeclarations : Option (List (String × String))) :
    Except String SoapEnvelope :=
  if bodyContent = "" then .error "Body-Content darf nicht leer sein"
  else if ¬ validateXml bodyContent then
    .error "Body-Content ist kein valides XML"
  else .ok { bodyContent, version, headerContent := none, namespaceDeclarations }

/-- `SoapEnvelope.build`: namespace declaration list, then the parts
joined by newlines. -/
def SoapEnvelope.build (e : SoapEnvelope) : String :=
  let nsDeclList : List String :=
    ["xmlns:" ++ e.version.pfx ++ "=\"" ++ e.version.nsUri ++ "\""] ++
      (match e.namespaceDeclarations with
       | some (d :: ds) =>
         (d :: ds).map fun d => "xmlns:" ++ d.1 ++ "=\"" ++ d.2 ++ "\""
       | _ => [])
  let nsString := pyJoin " " nsDeclList
  let parts : List String :=
    ["<?xml version=\"1.0\" encoding=\"utf-8\"?>",
     "<" ++ e.version.pfx ++ ":Envelope " ++ nsString ++ ">"] ++
    (if pyTruthy e.headerContent then
      ["<" ++ e.version.pfx ++ ":Header>", e.headerContent.getD "",
       "</" ++ e.version.pfx ++ ":Header>"]
     else []) ++
    ["<" ++ e.version.pfx ++ ":Body>", e.bodyContent,
     "</" ++ e.version.pfx ++ ":Body>",
     "</" ++ e.version.pfx ++ ":Envelope>"]
  pyJoin "\n" parts

/-! ## `SoapService` (`module_utils` tree): cache and retry -/

/-- Python-level exceptions surfaced by the service layer. -/
inductive PyErr : Type where
  | valueError (msg : String)
  | attributeError (typeName attrName : String)
  | repoError (e : RepoErr)
  deriving Repr, DecidableEq

/-- `SoapService._create_cache_key`: the SHA-256 hex digest of
`f"{url}:{action}:{body}"`.  The digest is modelled by the digested key
string itself (an injective stand-in — the service only ever compares
keys for equality, so determinism and key identity are preserved). -/
def createCacheKey (url action body : String) : String :=
  url ++ ":" ++ action ++ ":" ++ body

/-- The process-local response cache (`_request_cache` dict). -/
abbrev Cache := List (String × SoapResponse)

/-- `SoapService._is_cache_valid`:
`datetime.now() - received_at < timedelta(minutes=5)`, with times in
seconds.  (A `received_at` in the future yields a negative age in Python,
also valid; truncated subtraction gives 0, also valid.) -/
def isCacheValid (r : SoapResponse) (now : Nat) : Bool :=
  now - r.receivedAt < 300

/-- Dictionary assignment `d[k] = v` on an association list. -/
def setAssocStr (hs : List (String × String)) (k v : String) :
    List (String × String) :=
  if (hs.find? fun e => e.1 = k).isSome then
    hs.map fun e => if e.1 = k then (k, v) else e
  else hs ++ [(k, v)]

/-- `d[k] = v` on the cache. -/
def setCacheEntry (c : Cache) (k : String) (v : SoapResponse) : Cache :=
  if (c.find? fun e => e.1 = k).isSome then
    c.map fun e => if e.1 = k then (k, v) else e
  else c ++ [(k, v)]

/-- `SoapRequest.add_header`. -/
def addHeader (r : SoapRequest) (k v : String) : Except PyErr SoapRequest :=
  if k = "" || v = "" then
    .error (.valueError "Header key und value dürfen nicht leer sein")
  else .ok { r with headers := setAssocStr r.headers k v }

/-- The custom-header loop of `execute_request`. -/
def addCustomHeaders (r : SoapRequest)
    (customHeaders : Option (List (String × String))) :
    Except PyErr SoapRequest :=
  match customHeaders with
  | none => .ok r
  | some hs => hs.foldlM (fun acc e => addHeader acc e.1 e.2) r

/-- Decidable equality of `Except` outcomes. -/
instance exceptDecEq {ε α : Type} [DecidableEq ε] [DecidableEq α] :
    DecidableEq (Except ε α) := fun x y =>
  match x, y with
  | .ok a, .ok b =>
    if h : a = b then .isTrue (by rw [h])
    else .isFalse (by intro hc; cases hc; exact h rfl)
  | .error e, .error f =>
    if h : e = f then .isTrue (by rw [h])
    else .isFalse (by intro hc; cases hc; exact h rfl)
  | .ok _, .error _ => .isFalse (by intro hc; cases hc)
  | .error _, .ok _ => .isFalse (by intro hc; cases hc)

/-- Result of one `execute_request` call: outcome, updated cache, and
whether the repository was dispatched to. -/
structure ExecResult : Type where
  outcome : Except PyErr SoapResponse
  cache : Cache
  dispatched : Bool
  deriving Repr, DecidableEq

/-- `SoapService.execute_request`.  `repo` is the repository `send`;
`now` the current time (used by cache validity; also stamped as creation
time of the outgoing request).  The read of `endpoint.soap_version`
on the way to envelope construction goes through
`Endpoint.soapVersionAttr`; the `Endpoint` entity of this tree does not
define that attribute, so the dispatch path raises `AttributeError`. -/
def executeRequest (repo : SoapRequest → Except RepoErr SoapResponse)
    (endpoint : Endpoint) (action : SoapAction) (bodyContent : String)
    (useCache : Bool) (customHeaders : Option (List (String × String)))
    (cache : Cache) (now : Nat) : ExecResult :=
  if ¬ endpoint.supportsOperation action.value then
    { outcome := .error (.valueError
        ("Operation '" ++ action.value ++ "' wird von Endpoint '" ++
          pyShowOptStr endpoint.name ++ "' nicht unterstützt"))
      cache, dispatched := false }
  else
    let cacheKey := createCacheKey endpoint.url action.value bodyContent
    let hit :=
      if useCache then cache.find? fun e => e.1 = cacheKey else none
    match hit with
    | some entry =>
      if isCacheValid entry.2 now then
        { outcome := .ok entry.2, cache, dispatched := false }
      else
        executeRequestDispatch repo endpoint action bodyContent useCache
          customHeaders cache now cacheKey
    | none =>
      executeRequestDispatch repo endpoint action bodyContent useCache
        customHeaders cache now cacheKey
where
  /-- The part of `execute_request` after the cache check: envelope and
  request construction, dispatch, optional cache store. -/
  executeRequestDispatch (repo : SoapRequest → Except RepoErr SoapResponse)
      (endpoint : Endpoint) (action : SoapAction) (bodyContent : String)
      (useCache : Bool) (customHeaders : Option (List (String × String)))
      (cache : Cache) (now : Nat) (cacheKey : String) : ExecResult :=
    match endpoint.soapVersionAttr with
    | none =>
      { outcome := .error (.attributeError "Endpoint" "soap_version")
        cache, dispatched := false }
    | some sv =>
      let soapVersion := if sv = "1.1" then SoapVersion.v11 else SoapVersion.v12
      match SoapEnvelope.fromBody bodyContent soapVersion none with
      | .error m =>
        { outcome := .error (.valueError m), cache, dispatched := false }
      | .ok envelope =>
        match SoapRequest.make "uuid4" endpoint.url action.value
            envelope.build [] action.nspace sv endpoint.defaultTimeout now with
        | .error m =>
          { outcome := .error (.valueError m), cache, dispatched := false }
        | .ok request0 =>
          match addCustomHeaders request0 customHeaders with
          | .error e =>
            { outcome := .error e, cache, dispatched := false }
          | .ok request =>
            match repo request with
            | .error e =>
              { outcome := .error (.repoError e), cache, dispatched := true }
            | .ok response =>
              let cache' :=
                if useCache && response.isSuccessful then
                  setCacheEntry cache cacheKey response
                else cache
              { outcome := .ok response, cache := cache', dispatched := true }

/-- The wrapped message raised after the retry loop exhausts:
`f"Request fehlgeschlagen nach {max_retries} Versuchen: {last_error}"`. -/
def retryWrapMsg (maxRetries : Nat) (lastErr : Option RepoErr) : String :=
  "Request fehlgeschlagen nach " ++ toString maxRetries ++ " Versuchen: " ++
    (match lastErr with
     | some e => e.message
     | none => "None")

/-- The retry loop of `execute_request_with_retry`:
`for attempt in range(max_retries + 1)`, catching only
`SoapRepositoryError`, sleeping `retry_delay_seconds * (attempt + 1)`
before re-trying.  `exec` is the outcome of the `execute_request` call at
each attempt index; the returned list holds the sleep durations in
order.  Exceptions outside the `SoapRepositoryError` family propagate
immediately. -/
def retryGo (exec : Nat → Except PyErr SoapResponse)
    (maxRetries retryDelay : Nat) :
    Nat → Nat → Option RepoErr → Except PyErr SoapResponse × List Nat
  | 0, _, lastErr =>
    (.error (.repoError (.generic (retryWrapMsg maxRetries lastErr))), [])
  | rem + 1, attempt, _ =>
    match exec attempt with
    | .ok r => (.ok r, [])
    | .error (.repoError e) =>
      if attempt < maxRetries then
        let p := retryGo exec maxRetries retryDelay rem (attempt + 1) (some e)
        (p.1, retryDelay * (attempt + 1) :: p.2)
      else
        (.error (.repoError (.generic (retryWrapMsg maxRetries (some e)))), [])
    | .error other => (.error other, [])

/-- `SoapService.execute_request_with_retry`.  The repository may behave
differently on each attempt (`repo` takes the attempt index); each
attempt calls `execute_request` with `use_cache=False`. -/
def executeRequestWithRetry
    (repo : Nat → SoapRequest → Except RepoErr SoapResponse)
    (endpoint : Endpoint) (action : SoapAction) (bodyContent : String)
    (maxRetries retryDelay : Nat) (cache : Cache) (now : Nat) :
    Except PyErr SoapResponse × List Nat :=
  retryGo
    (fun attempt =>
      (executeRequest (repo attempt) endpoint action bodyContent false none
        cache now).outcome)
    maxRetries retryDelay (maxRetries + 1) 0 none

/-! ## `XmlBody` value object of the `module_utils` tree
(minified equality) -/

/-- `XmlBody.__post_init__` (`module_utils` tree): non-empty and parses
as XML. -/
def xmlBodyValid (v : String) : Bool :=
  v ≠ "" && validateXml v

/-- Termination helper: dropping a whitespace run and one character
shrinks a list. -/
theorem dropWhile_tail_lt (p : Char → Bool) (t : List Char) :
    (List.dropWhile p t).length - 1 < t.length + 1 := by
  have h1 : (List.takeWhile p t).length + (List.dropWhile p t).length
      = t.length := by
    conv_rhs => rw [← @List.takeWhile_append_dropWhile _ p t]
    rw [List.length_append]
  omega

/-- The scan of `re.sub(r'>\s+<', '><', value)`: left to right,
non-overlapping; a `>` followed by one or more whitespace characters and
a `<` collapses to `><`, scanning resumes after the `<`. -/
def minifyChars : List Char → List Char
  | [] => []
  | c :: rest =>
    if _h : c = '>' ∧ rest.takeWhile pySpace ≠ [] ∧
        (rest.dropWhile pySpace).head? = some '<' then
      '>' :: '<' :: minifyChars (rest.dropWhile pySpace).tail
    else c :: minifyChars rest
termination_by cs => cs.length
decreasing_by
  all_goals simp_wf
  all_goals first
    | apply dropWhile_tail_lt
    | omega

/-- `XmlBody.minify` (`module_utils` tree): the regex substitution, then
`str.strip()`. -/
def xmlBodyMinify (v : String) : String :=
  pyStrip (String.mk (minifyChars v.data))

/-- `XmlBody.__eq__` (`module_utils` tree): equality of minified
values. -/
def xmlBodyEq (a b : String) : Bool :=
  xmlBodyMinify a = xmlBodyMinify b

/-! Formalisation of "differ only by insignificant whitespace between
elements": both strings are assembled from the same markup pieces —
each a chunk starting with `<` and ending with `>` — separated by
whitespace-only gaps that may differ, plus leading/trailing whitespace. -/

/-- A whitespace-only run. -/
def wsOnly (l : List Char) : Bool :=
  l.all pySpace

/-- A markup piece: starts with `<`, ends with `>` (hence non-empty). -/
def pieceOk (p : List Char) : Bool :=
  p.head? = some '<' && p.getLast? = some '>'

/-- Pieces after the first, each preceded by its (possibly empty)
inter-element gap. -/
def coreFrom : List (List Char) → List (List Char) → List Char
  | [], _ => []
  | q :: qs, [] => q ++ coreFrom qs []
  | q :: qs, g :: gs => g ++ q ++ coreFrom qs gs

/-- A string assembled from markup pieces with chosen whitespace gaps
and leading/trailing whitespace. -/
def assembleWs (lead first : List Char) (pieces gaps : List (List Char))
    (trail : List Char) : List Char :=
  lead ++ first ++ coreFrom pieces gaps ++ trail

/-! ## `XmlBody.from_dict` of the `plugins` tree
(the canonical, namespace-parameterised dict→XML builder) -/

mutual

/-- Python values that can appear in a `body_dict`. -/
inductive PyVal : Type where
  | vStr (s : String)
  | vInt (n : Int)
  | vBool (b : Bool)
  | vNone
  | vList (items : PyList)
  | vDict (entries : PyDict)
  deriving Repr

/-- A Python list of such values. -/
inductive PyList : Type where
  | nil
  | cons (v : PyVal) (rest : PyList)
  deriving Repr

/-- A Python dict (ordered key/value pairs). -/
inductive PyDict : Type where
  | nil
  | cons (k : String) (v : PyVal) (rest : PyDict)
  deriving Repr

end

/-- `len` of a dict. -/
def PyDict.length : PyDict → Nat
  | .nil => 0
  | .cons _ _ rest => 1 + rest.length

mutual

/-- Python `repr` (string escapes are not modelled; no claim depends on
them). -/
def pyValRepr : PyVal → String
  | .vStr s => "'" ++ s ++ "'"
  | .vInt n => toString n
  | .vBool b => if b then "True" else "False"
  | .vNone => "None"
  | .vList items => "[" ++ pyListRepr items ++ "]"
  | .vDict entries => "\x7b" ++ pyDictRepr entries ++ "\x7d"

/-- `", ".join(repr(x) for x in items)`. -/
def pyListRepr : PyList → String
  | .nil => ""
  | .cons x .nil => pyValRepr x
  | .cons x (.cons y rest) =>
    pyValRepr x ++ ", " ++ pyListRepr (.cons y rest)

/-- `", ".join(f"{k!r}: {v!r}")`. -/
def pyDictRepr : PyDict → String
  | .nil => ""
  | .cons k v .nil => "'" ++ k ++ "': " ++ pyValRepr v
  | .cons k v (.cons k2 v2 rest) =>
    "'" ++ k ++ "': " ++ pyValRepr v ++ ", " ++ pyDictRepr (.cons k2 v2 rest)

end

/-- Python `str()` (`str` of a container equals its `repr`). -/
def pyValStr : PyVal → String
  | .vStr s => s
  | v => pyValRepr v

/-- An ElementTree element as built by `from_dict`: tag in Clark
notation, split into namespace URI and local name. -/
inductive ETElem : Type where
  | mk (ns : Option String) (tag : String) (text : Option String)
      (children : List ETElem)
  deriving Repr

/-- Namespace part of the tag. -/
def ETElem.ns : ETElem → Option String
  | .mk n _ _ _ => n

/-- Local tag name. -/
def ETElem.tag : ETElem → String
  | .mk _ t _ _ => t

/-- `element.text`. -/
def ETElem.text : ETElem → Option String
  | .mk _ _ t _ => t

/-- Child elements. -/
def ETElem.children : ETElem → List ETElem
  | .mk _ _ _ c => c

mutual

/-- The `add_elements` closure of `XmlBody.from_dict` (plugins tree).
For each key a child is created under the parent; a dict value recurses
into it, a list value removes it again and appends one sibling per item,
`None` leaves it empty, any other value becomes its text via `str`.
`acc` is the parent's mutable child list. -/
def addElements (ns : Option String) : PyDict → List ETElem → List ETElem
  | .nil, acc => acc
  | .cons k v rest, acc =>
    let acc' :=
      match v with
      | .vDict d => acc ++ [ETElem.mk ns k none (addElements ns d [])]
      | .vList items => acc ++ listChildren ns k items
      | .vNone => acc ++ [ETElem.mk ns k none []]
      | sc => acc ++ [ETElem.mk ns k (some (pyValStr sc)) []]
    addElements ns rest acc'

/-- The inner loop over a list value: one sibling per item. -/
def listChildren (ns : Option String) (k : String) : PyList → List ETElem
  | .nil => []
  | .cons it rest => listChild ns k it :: listChildren ns k rest

/-- One list item: `<k>` with recursion for dicts, `str(item)` text
otherwise (`''` for `None`). -/
def listChild (ns : Option String) (k : String) : PyVal → ETElem
  | .vDict d => ETElem.mk ns k none (addElements ns d [])
  | .vNone => ETElem.mk ns k (some "") []
  | it => ETElem.mk ns k (some (pyValStr it)) []

end

/-- `XmlBody.from_dict` (plugins tree), up to serialisation: the element
structure it builds plus whether the multiple-top-level-keys warning was
emitted.  (`ET.tostring` of the result is not modelled; the claims about
this builder concern the element structure.)  Per the source, the
namespace qualifies every generated element when truthy; with
`root_tag=None` the children are returned as a fragment and an empty
fragment is a `ValueError`. -/
def fromDict (data : PyDict) (rootTag : Option String)
    (nspace : Option String) (nsPfx : Option String) :
    Except PyErr (List ETElem) × Bool :=
  match data with
  | .nil => (.error (.valueError "data darf nicht leer sein"), false)
  | .cons k0 v0 rest0 =>
    let data := PyDict.cons k0 v0 rest0
    let nsEff : Option String := if pyTruthy nspace then nspace else none
    match rootTag with
    | none =>
      let warned := decide (data.length > 1)
      let children := addElements nsEff data []
      if children.isEmpty then
        (.error (.valueError "Keine XML-Elemente in data gefunden"), warned)
      else (.ok children, warned)
    | some rt =>
      (.ok [ETElem.mk nsEff rt none (addElements nsEff data [])], false)

mutual

/-- Spec-side fragment semantics, following the words of §4.1: every
key becomes a child element in order; nested maps recurse; sequences
produce one sibling element per item under the same tag (no wrapper
element); `None` produces an empty element; any other value becomes
element text via string conversion. -/
def specFragment (ns : Option String) : PyDict → List ETElem
  | .nil => []
  | .cons k v rest => specEntry ns k v ++ specFragment ns rest

/-- Spec-side elements for one key/value pair. -/
def specEntry (ns : Option String) (k : String) : PyVal → List ETElem
  | .vDict d => [ETElem.mk ns k none (specFragment ns d)]
  | .vList items => specItems ns k items
  | .vNone => [ETElem.mk ns k none []]
  | v => [ETElem.mk ns k (some (pyValStr v)) []]

/-- Spec-side sibling elements for a sequence value. -/
def specItems (ns : Option String) (k : String) : PyList → List ETElem
  | .nil => []
  | .cons it rest => specOneItem ns k it :: specItems ns k rest

/-- Spec-side element for one sequence item. -/
def specOneItem (ns : Option String) (k : String) : PyVal → ETElem
  | .vDict d => ETElem.mk ns k none (specFragment ns d)
  | .vNone => ETElem.mk ns k (some "") []
  | it => ETElem.mk ns k (some (pyValStr it)) []

end

/-! ## Use case layer: `SendSoapRequestUseCase` result, DTO mapping and
the `soap_request` module boundary -/

/-- `SendSoapRequestResult` dataclass (plugins tree). -/
structure SendSoapRequestResult : Type where
  success : Bool
  response : Option SoapResponse
  extractedData : Option RVal := none
  validationErrors : Option (List String) := none
  errorMessage : Option String := none
  deriving Repr

/-- Python truthiness of a result value. -/
def rvalTruthy : RVal → Bool
  | .vBool b => b
  | .vStr s => s ≠ ""
  | .vInt n => n ≠ 0
  | .vNat n => n ≠ 0
  | .vNone => false
  | .vDict entries => !entries.isEmpty

/-- `d[k] = v` on a result dictionary (replace in place or append). -/
def setRVal (d : List (String × RVal)) (k : String) (v : RVal) :
    List (String × RVal) :=
  if (d.find? fun e => e.1 = k).isSome then
    d.map fun e => if e.1 = k then (k, v) else e
  else d ++ [(k, v)]

/-- `dict.update` on result dictionaries. -/
def pyUpdate (d upd : List (String × RVal)) : List (String × RVal) :=
  upd.foldl (fun acc e => setRVal acc e.1 e.2) d

/-- `dict[k]` lookup. -/
def getRVal (d : List (String × RVal)) (k : String) : Option RVal :=
  (d.find? fun e => e.1 = k).map fun e => e.2

/-- `SendSoapRequestResult.to_dict`: starts from
`{'success': success, 'changed': success}` and then merges the
response's `to_ansible_result()` over it (which itself carries a
`changed` key). -/
def SendSoapRequestResult.toDict (r : SendSoapRequestResult) :
    List (String × RVal) :=
  let d : List (String × RVal) :=
    [("success", .vBool r.success), ("changed", .vBool r.success)]
  let d := match r.response with
    | some resp => pyUpdate d resp.toAnsibleResult
    | none => d
  let d := match r.extractedData with
    | some x => if rvalTruthy x then d ++ [("extracted_data", x)] else d
    | none => d
  let d := match r.validationErrors with
    | some (e :: es) =>
      d ++ [("validation_errors", RVal.vDict ((e :: es).map fun s => (s, RVal.vNone)))]
    | _ => d
  match r.errorMessage with
  | some m => if m ≠ "" then d ++ [("error_message", .vStr m)] else d
  | none => d

/-- `SoapResponseDTO` dataclass (plugins tree). -/
structure SoapResponseDTO : Type where
  success : Bool
  statusCode : Option Int
  body : Option String
  headers : Option (List (String × String)) := none
  responseTimeMs : Option Nat := none
  extractedData : Option RVal := none
  errorMessage : Option String := none
  deriving Repr

/-- `SoapResponseDTO.to_dict`. -/
def SoapResponseDTO.toDict (dto : SoapResponseDTO) : List (String × RVal) :=
  let d : List (String × RVal) :=
    [("success", .vBool dto.success),
     ("status_code", optIntR dto.statusCode),
     ("body", optStrR dto.body)]
  let d := match dto.headers with
    | some (h :: hs) =>
      d ++ [("headers", RVal.vDict ((h :: hs).map fun e => (e.1, RVal.vStr e.2)))]
    | _ => d
  let d := match dto.responseTimeMs with
    | some t => d ++ [("response_time_ms", RVal.vNat t)]
    | none => d
  let d := match dto.extractedData with
    | some x => if rvalTruthy x then d ++ [("extracted_data", x)] else d
    | none => d
  match dto.errorMessage with
  | some m => if m ≠ "" then d ++ [("error_message", .vStr m)] else d
  | none => d

/-- `DtoMapper.result_to_dto`. -/
def resultToDto (r : SendSoapRequestResult) : SoapResponseDTO :=
  match r.response with
  | some resp =>
    { success := r.success
      statusCode := resp.statusCode
      body := resp.body
      headers := some resp.headers
      responseTimeMs := resp.responseTimeMs
      extractedData := r.extractedData
      errorMessage := r.errorMessage }
  | none =>
    { success := false
      statusCode := some 0
      body := some ""
      errorMessage :=
        some (if pyTruthy r.errorMessage then r.errorMessage.getD ""
              else "Unknown error") }

/-- The result dictionary assembled by `run_module` in
`plugins/modules/soap_request.py`: the initial skeleton, updated with
the response DTO's dictionary, then `result['changed'] =
use_case_result.success`.  This is the mapping handed to
`exit_json`/`fail_json`. -/
def runModuleResult (ucResult : SendSoapRequestResult) :
    List (String × RVal) :=
  let base : List (String × RVal) :=
    [("changed", .vBool false), ("success", .vBool false),
     ("status_code", .vInt 0), ("body", .vStr "")]
  let r1 := pyUpdate base (resultToDto ucResult).toDict
  setRVal r1 "changed" (.vBool ucResult.success)

/-! ## `BatchSendUseCase` -/

/-- `BatchSendResult` dataclass. -/
structure BatchSendResult : Type where
  total : Nat
  successful : Nat
  failed : Nat
  results : List SendSoapRequestResult
  deriving Repr

/-- The loop body of `_execute_sequential`: returns
`(successful, failed, results)`. -/
def seqLoop {α : Type} (exec : α → SendSoapRequestResult) (stopOnError : Bool) :
    List α → Nat × Nat × List SendSoapRequestResult
  | [] => (0, 0, [])
  | c :: rest =>
    let r := exec c
    if r.success then
      let p := seqLoop exec stopOnError rest
      (p.1 + 1, p.2.1, r :: p.2.2)
    else if stopOnError then (0, 1, [r])
    else
      let p := seqLoop exec stopOnError rest
      (p.1, p.2.1 + 1, r :: p.2.2)

/-- `BatchSendUseCase._execute_sequential`; `exec` is
`SendSoapRequestUseCase.execute` (total: the use case converts
exceptions into failed results). -/
def executeSequential {α : Type} (exec : α → SendSoapRequestResult)
    (requests : List α) (stopOnError : Bool) : BatchSendResult :=
  let p := seqLoop exec stopOnError requests
  { total := requests.length, successful := p.1, failed := p.2.1,
    results := p.2.2 }

/-- One future's outcome as seen by the `as_completed` loop of
`_execute_parallel`: either the use case's result or an exception raised
out of `future.result()`. -/
inductive ParOutcome : Type where
  | ok (r : SendSoapRequestResult)
  | exn (msg : String)
  deriving Repr

/-- The failed entry appended when `future.result()` raises. -/
def mkExecErrorResult (msg : String) : SendSoapRequestResult :=
  { success := false, response := none,
    errorMessage := some ("Execution error: " ++ msg) }

/-- The `as_completed` collection loop of `_execute_parallel`
(completion order; a failed result breaks out when `stop_on_error`,
an exception never does). -/
def parLoop (stopOnError : Bool) :
    List ParOutcome → Nat × Nat × List SendSoapRequestResult
  | [] => (0, 0, [])
  | .ok r :: rest =>
    if r.success then
      let p := parLoop stopOnError rest
      (p.1 + 1, p.2.1, r :: p.2.2)
    else if stopOnError then (0, 1, [r])
    else
      let p := parLoop stopOnError rest
      (p.1, p.2.1 + 1, r :: p.2.2)
  | .exn m :: rest =>
    let p := parLoop stopOnError rest
    (p.1, p.2.1 + 1, mkExecErrorResult m :: p.2.2)

/-- `BatchSendUseCase._execute_parallel` over a given completion order
`outcomes` of the submitted futures (one entry per future the loop
consumes; absent an early break, every submitted request contributes
exactly one outcome, so `outcomes.length = numRequests`). -/
def executeParallel (numRequests : Nat) (outcomes : List ParOutcome)
    (stopOnError : Bool) : BatchSendResult :=
  let p := parLoop stopOnError outcomes
  { total := numRequests, successful := p.1, failed := p.2.1,
    results := p.2.2 }

/-- The prefix of the request list that sequential stop-on-error
processing consumes: everything up to and including the first request
whose result is failed. -/
def stopPrefix {α : Type} (exec : α → SendSoapRequestResult) :
    List α → List α
  | [] => []
  | c :: rest =>
    c :: (if (exec c).success then stopPrefix exec rest else [])

/-! ## Raw-tree well-formedness, serialisation sizes and the envelope
tree (used to settle the envelope-validity claim) -/

/-- Is a raw node a text node? -/
def isTextNode : RawXml → Bool
  | .text _ => true
  | .elem _ _ _ => false

/-- Attribute well-formedness for round-tripping: non-empty name of
name characters, value free of `"`. -/
def wfAttrs : List (List Char × List Char) → Bool
  | [] => true
  | (n, v) :: rest =>
    !n.isEmpty && n.all isNameChar && v.all (fun c => c ≠ '"') &&
      wfAttrs rest

/-- Does a node list start with a text node? -/
def headIsText : List RawXml → Bool
  | .text _ :: _ => true
  | _ => false

mutual

/-- Node well-formedness inside content: an element with name-character
tag, well-formed attributes and content, or a non-empty `<`-free text
run. -/
def wfN : RawXml → Bool
  | .elem tag attrs children =>
    !tag.isEmpty && tag.all isNameChar && wfAttrs attrs && wfC children
  | .text s => !s.isEmpty && s.all (fun c => c ≠ '<')

/-- Content well-formedness: well-formed nodes, no two adjacent text
nodes (they would merge on re-parsing). -/
def wfC : List RawXml → Bool
  | [] => true
  | x :: rest => wfN x && !(isTextNode x && headIsText rest) && wfC rest

end

/-- Element well-formedness: a well-formed element node. -/
def wfE : RawXml → Bool
  | .elem tag attrs children => wfN (.elem tag attrs children)
  | .text _ => false

/-- Fuel needed by `pAttrs`. -/
def needA (attrs : List (List Char × List Char)) : Nat :=
  attrs.length + 1

mutual

/-- Fuel needed by `pElement` on a serialised tree. -/
def needE : RawXml → Nat
  | .elem _ attrs children => 1 + max (needA attrs) (needC children)
  | .text _ => 1

/-- Fuel needed by `pContent` on serialised content. -/
def needC : List RawXml → Nat
  | [] => 1
  | .elem tag attrs ch :: rest =>
    1 + max (needE (.elem tag attrs ch)) (needC rest)
  | .text _ :: rest => 1 + needC rest

end

/-- `sep.join` at the character level. -/
def charJoin (sep : List Char) : List (List Char) → List Char
  | [] => []
  | [p] => p
  | p :: q :: rest => p ++ sep ++ charJoin sep (q :: rest)

/-- The raw `<soap:Body>` section of a built envelope. -/
def envBodyRaw (rbt : RawXml) : RawXml :=
  .elem "soap:Body".data [] [.text ['\n'], rbt, .text ['\n']]

/-- The raw `<soap:Header>` section of a built envelope. -/
def envHeaderRaw (rht : RawXml) : RawXml :=
  .elem "soap:Header".data [] [.text ['\n'], rht, .text ['\n']]

mutual

/-- Number of elements with the given qualified name in a resolved
tree (the node itself included). -/
def countQ (ns : Option String) (ln : String) : Xml → Nat
  | .elem ns2 n2 _ ch =>
    (if ns2 = ns && n2 = ln then 1 else 0) + countQList ns ln ch
  | .text _ => 0

/-- Count over a forest. -/
def countQList (ns : Option String) (ln : String) : List Xml → Nat
  | [] => 0
  | x :: rest => countQ ns ln x + countQList ns ln rest

end

mutual

/-- No element of the tree lives in the given namespace. -/
def noNsElem (uri : String) : Xml → Bool
  | .elem ns2 _ _ ch => ns2 ≠ some uri && noNsElemList uri ch
  | .text _ => true

/-- Forest version of `noNsElem`. -/
def noNsElemList (uri : String) : List Xml → Bool
  | [] => true
  | x :: rest => noNsElem uri x && noNsElemList uri rest

end

/-! ## Concrete inputs used by the settled claims -/

/-- A standard SOAP 1.1 fault response body (HTTP 500), as in the
specification's scenario 2. -/
def faultBody500 : String :=
  "<soap:Envelope xmlns:soap=\"http://schemas.xmlsoap.org/soap/envelope/\"><soap:Body><soap:Fault><faultcode>Server</faultcode><faultstring>Boom</faultstring></soap:Fault></soap:Body></soap:Envelope>"

/-- A well-formed request used where a concrete `SoapRequest` is
needed. -/
def sampleRequest : SoapRequest :=
  { id := "r1", endpointUrl := "http://example.com/soap",
    soapAction := "Ping", body := "<a/>" }

/-! # Theorems -/

/-! ## Helper lemmas -/

/-- Setting a key in a result dictionary makes it the looked-up value. -/
theorem getRVal_setRVal (d : List (String × RVal)) (k : String) (v : RVal) :
    getRVal (setRVal d k v) k = some v := by
  induction d with
  | nil => simp [setRVal, getRVal]
  | cons e t ih =>
    by_cases he : e.1 = k
    · simp [setRVal, getRVal, he]
    · by_cases h2 : (t.find? fun e => e.1 = k).isSome
      · simp [setRVal, getRVal, he, h2] at ih ⊢
        exact ih
      · simp [setRVal, getRVal, he, h2] at ih ⊢
        exact ih

/-! ## C10 — `SoapResponse.is_successful` and failed marking -/

/-- C10.  `is_successful()` is true exactly when the status is SUCCESS
and a status code is present and lies in `[200, 300)`; in particular a
SUCCESS response without a status code is not successful, and
`to_ansible_result` marks it `failed`. -/
theorem c10_is_successful_iff (r : SoapResponse) :
    (r.isSuccessful = true ↔
      (r.status = ResponseStatus.success ∧
        ∃ c, r.statusCode = some c ∧ 200 ≤ c ∧ c < 300)) ∧
    (r.status = ResponseStatus.success → r.statusCode = none →
      r.isSuccessful = false ∧
        getRVal r.toAnsibleResult "failed" = some (.vBool true)) := by
  constructor
  · cases hc : r.statusCode with
    | none =>
      simp [SoapResponse.isSuccessful, hc]
    | some c =>
      simp [SoapResponse.isSuccessful, hc]
  · intro hs hc
    have hfail : r.isSuccessful = false := by
      simp [SoapResponse.isSuccessful, hc]
    refine ⟨hfail, ?_⟩
    simp [SoapResponse.toAnsibleResult, hfail, getRVal]
    cases r.responseTimeMs <;> simp

/-- C10 witness: a SUCCESS response with no status code is reported as
not successful and failed. -/
theorem c10_is_successful_iff_witness :
    ({ requestId := "r1", status := ResponseStatus.success} :
        SoapResponse).isSuccessful = false ∧
      getRVal ({ requestId := "r1", status := ResponseStatus.success} :
          SoapResponse).toAnsibleResult "failed" = some (.vBool true) :=
  (c10_is_successful_iff
    { requestId := "r1", status := ResponseStatus.success }).2 rfl rfl

/-! ## C8 — `changed` equals `success` at the module boundary -/

/-- C8.  The result mapping `run_module` hands to
`exit_json`/`fail_json` carries `changed = use_case_result.success`
(assigned last, after the DTO dictionary is merged in): true whenever
the request succeeded, false otherwise. -/
theorem c8_changed_equals_success (ucResult : SendSoapRequestResult) :
    getRVal (runModuleResult ucResult) "changed" =
      some (.vBool ucResult.success) := by
  unfold runModuleResult
  exact getRVal_setRVal _ _ _

/-! ## C2 — non-XML response bodies are a hard failure before
classification -/

/-- C2.  Whenever the received HTTP response body is not well-formed
XML, `HttpSoapRepository.send` raises `InvalidResponseError` before any
classification: the outcome is the parsing-error failure — never a
`SoapResponse`, in particular never one classified as success — even
when the HTTP status is 2xx. -/
theorem c2_invalid_xml_hard_failure (req : SoapRequest) (hr : HttpResponse)
    (now : Nat) (hbad : validateXml hr.body = false) :
    send req (.response hr) now =
      .error (.invalidResponse "Response ist kein gültiges XML"
        (some hr.body)) := by
  simp [send, hbad]

/-- C2 witness: an HTTP 200 response whose body `<not-closed` is not
XML yields the invalid-response error. -/
theorem c2_invalid_xml_hard_failure_witness :
    validateXml "<not-closed" = false ∧
      send { id := "r1", endpointUrl := "http://h/s", soapAction := "A",
             body := "<a/>" }
          (.response { statusCode := 200, body := "<not-closed" }) 0 =
        .error (.invalidResponse "Response ist kein gültiges XML"
          (some "<not-closed")) :=
  ⟨by decide, c2_invalid_xml_hard_failure _ _ 0 (by decide)⟩

/-! ## C3 — batch count invariants -/

/-- Counting invariant of the sequential loop. -/
theorem seqLoop_inv {α : Type} (exec : α → SendSoapRequestResult)
    (stopOnError : Bool) (reqs : List α) :
    (seqLoop exec stopOnError reqs).1 + (seqLoop exec stopOnError reqs).2.1 =
        (seqLoop exec stopOnError reqs).2.2.length ∧
      (seqLoop exec stopOnError reqs).2.2.length ≤ reqs.length := by
  induction reqs with
  | nil => simp [seqLoop]
  | cons c rest ih =>
    by_cases hs : (exec c).success
    · simp [seqLoop, hs]
      omega
    · cases hstop : stopOnError
      · rw [hstop] at ih
        simp [seqLoop, hs, hstop]
        omega
      · simp [seqLoop, hs, hstop]

/-- Without stop-on-error, the sequential loop maps over all requests in
input order. -/
theorem seqLoop_noStop {α : Type} (exec : α → SendSoapRequestResult)
    (reqs : List α) :
    (seqLoop exec false reqs).2.2 = reqs.map exec := by
  induction reqs with
  | nil => simp [seqLoop]
  | cons c rest ih =>
    by_cases hs : (exec c).success <;> simp [seqLoop, hs, ih]

/-- With stop-on-error, the sequential loop maps over exactly the prefix
ending at the first failure. -/
theorem seqLoop_stop {α : Type} (exec : α → SendSoapRequestResult)
    (reqs : List α) :
    (seqLoop exec true reqs).2.2 = (stopPrefix exec reqs).map exec := by
  induction reqs with
  | nil => simp [seqLoop, stopPrefix]
  | cons c rest ih =>
    by_cases hs : (exec c).success <;> simp [seqLoop, stopPrefix, hs, ih]

/-- Counting invariant of the parallel collection loop. -/
theorem parLoop_inv (stopOnError : Bool) (outcomes : List ParOutcome) :
    (parLoop stopOnError outcomes).1 + (parLoop stopOnError outcomes).2.1 =
        (parLoop stopOnError outcomes).2.2.length ∧
      (parLoop stopOnError outcomes).2.2.length ≤ outcomes.length := by
  induction outcomes with
  | nil => simp [parLoop]
  | cons o rest ih =>
    cases o with
    | ok r =>
      by_cases hs : r.success
      · simp [parLoop, hs]
        omega
      · cases hstop : stopOnError
        · rw [hstop] at ih
          simp [parLoop, hs, hstop]
          omega
        · simp [parLoop, hs, hstop]
    | exn m =>
      simp [parLoop]
      omega

/-- C3.  For every batch run, `successful + failed = len(results) ≤
total` (in parallel mode over any completion order of the submitted
futures); sequentially without stop-on-error `results` is exactly the
input-order map over all requests; sequentially with stop-on-error the
run stops right after the first failed result, so `results` is the map
over the prefix ending there. -/
theorem c3_batch_count_invariant {α : Type}
    (exec : α → SendSoapRequestResult) (requests : List α)
    (stopOnError : Bool) :
    ((executeSequential exec requests stopOnError).successful +
        (executeSequential exec requests stopOnError).failed =
        (executeSequential exec requests stopOnError).results.length ∧
      (executeSequential exec requests stopOnError).results.length ≤
        (executeSequential exec requests stopOnError).total) ∧
    ((executeSequential exec requests false).results = requests.map exec) ∧
    ((executeSequential exec requests true).results =
      (stopPrefix exec requests).map exec) ∧
    (∀ outcomes : List ParOutcome, outcomes.length = requests.length →
      (executeParallel requests.length outcomes stopOnError).successful +
          (executeParallel requests.length outcomes stopOnError).failed =
          (executeParallel requests.length outcomes stopOnError).results.length ∧
        (executeParallel requests.length outcomes stopOnError).results.length ≤
          (executeParallel requests.length outcomes stopOnError).total) := by
  refine ⟨?_, ?_, ?_, ?_⟩
  · have h := seqLoop_inv exec stopOnError requests
    exact ⟨h.1, h.2⟩
  · exact seqLoop_noStop exec requests
  · exact seqLoop_stop exec requests
  · intro outcomes hlen
    have h := parLoop_inv stopOnError outcomes
    exact ⟨h.1, by simpa [executeParallel, hlen] using h.2⟩

/-- C3 witness: three requests of which the second fails; sequential
stop-on-error processes exactly the first two, and a parallel completion
order of the same length satisfies the count invariant. -/
theorem c3_batch_count_invariant_witness :
    ((executeSequential
        (fun n : Nat =>
          if n = 2 then { success := false, response := none }
          else { success := true, response := none })
        [1, 2, 3] true).results =
      [{ success := true, response := none },
       { success := false, response := none }]) ∧
    ((executeParallel 3
        [.exn "boom",
         .ok { success := true, response := none },
         .ok { success := false, response := none }]
        true).successful +
      (executeParallel 3
        [.exn "boom",
         .ok { success := true, response := none },
         .ok { success := false, response := none }]
        true).failed =
      (executeParallel 3
        [.exn "boom",
         .ok { success := true, response := none },
         .ok { success := false, response := none }]
        true).results.length) := by
  have h := c3_batch_count_invariant
    (fun n : Nat =>
      if n = 2 then { success := false, response := none }
      else { success := true, response := none })
    [1, 2, 3] true
  refine ⟨?_, ?_⟩
  · rw [h.2.2.1]
    rfl
  · exact (h.2.2.2
      [.exn "boom",
       .ok { success := true, response := none },
       .ok { success := false, response := none }] rfl).1

/-! ## C1 — response classification decision table (fault detection) -/

set_option maxRecDepth 100000

/-- C1 evaluation at the failing input.  The HTTP 500 response carrying
a standard SOAP 1.1 fault (the specification's own scenario: `Fault`
with `faultcode`/`faultstring` children) is well-formed XML and contains
a `Fault` element in the SOAP 1.1 namespace, yet
`_contains_soap_fault` reports no fault — `find_element_text` returns
the element's *text*, which for a `Fault` whose content starts with a
child element is `None` (or all-whitespace, stripped to the falsy `""`
and discarded by the `or`-chain) — so `_create_soap_response` classifies
it as a plain server error instead of `soap_fault`. -/
theorem c1_fault_classification_code_bug_eval :
    validateXml faultBody500 = true ∧
    (findDesc (some soap11ns) "Fault"
        ((etFromstring faultBody500).getD (.text ""))).isSome = true ∧
    containsSoapFault faultBody500 = false ∧
    (createSoapResponse sampleRequest
        { statusCode := 500, body := faultBody500 } 0).status =
      ResponseStatus.error ∧
    (createSoapResponse sampleRequest
        { statusCode := 500, body := faultBody500 } 0).errorMessage =
      some "Server-Fehler" := by
  decide

/-! ## C5 / C6 — `SoapService` dispatch path is unreachable
(`endpoint.soap_version` does not exist) -/

/-- C5 evaluation at the failing input.  With `max_retries = 2` and a
repository failing with a transport error on every attempt, the claim
expects two retries with backoff sleeps and a final wrapped
`SoapRepositoryError` carrying the attempt count.  Instead the first
attempt's `execute_request` raises `AttributeError` at
`endpoint.soap_version` before reaching the repository; the error is
not caught by the `except SoapRepositoryError` clause, so no sleep and
no retry ever happen and the error escapes unwrapped. -/
theorem c5_retry_loop_code_bug_eval :
    executeRequestWithRetry
        (fun _ _ => .error (.endpointNotReachable "http://example.com/soap"
          "Verbindungsfehler: refused"))
        { url := "http://example.com/soap" } { value := "Ping" } "<a/>"
        2 1 [] 0 =
      (.error (.attributeError "Endpoint" "soap_version"), []) := by
  decide

/-- C6 evaluation at the failing input.  With caching enabled and an
empty cache, `execute_request` must dispatch freshly and store a
successful response; instead it raises `AttributeError` at
`endpoint.soap_version` before envelope construction: no dispatch
happens and the cache stays empty — so no entry can ever be stored or
later returned. -/
theorem c6_cache_code_bug_eval :
    executeRequest (fun _ => .error (.generic "unreachable"))
        { url := "http://example.com/soap" } { value := "Ping" } "<a/>"
        true none [] 0 =
      { outcome := .error (.attributeError "Endpoint" "soap_version"),
        cache := [], dispatched := false } := by
  decide

/-! ## C7 — dict→XML builder semantics -/

mutual

/-- The code's accumulator-passing builder produces exactly the
spec-side fragment, appended to the parent's existing children. -/
theorem addElements_eq_spec (ns : Option String) :
    ∀ (data : PyDict) (acc : List ETElem),
      addElements ns data acc = acc ++ specFragment ns data
  | .nil, acc => by simp [addElements, specFragment]
  | .cons k v rest, acc => by
    cases v with
    | vDict d =>
      simp only [addElements, specFragment, specEntry]
      rw [addElements_eq_spec ns rest, addElements_eq_spec ns d []]
      simp
    | vList items =>
      simp only [addElements, specFragment, specEntry]
      rw [addElements_eq_spec ns rest, listChildren_eq_spec ns k items]
      simp
    | vNone =>
      simp only [addElements, specFragment, specEntry]
      rw [addElements_eq_spec ns rest]
      simp
    | vStr s =>
      simp only [addElements, specFragment, specEntry]
      rw [addElements_eq_spec ns rest]
      simp
    | vInt n =>
      simp only [addElements, specFragment, specEntry]
      rw [addElements_eq_spec ns rest]
      simp
    | vBool b =>
      simp only [addElements, specFragment, specEntry]
      rw [addElements_eq_spec ns rest]
      simp

/-- The code's list loop produces the spec-side siblings. -/
theorem listChildren_eq_spec (ns : Option String) (k : String) :
    ∀ items : PyList, listChildren ns k items = specItems ns k items
  | .nil => by simp [listChildren, specItems]
  | .cons it rest => by
    simp only [listChildren, specItems]
    rw [listChild_eq_spec ns k it, listChildren_eq_spec ns k rest]

/-- The code's item builder matches the spec-side item element. -/
theorem listChild_eq_spec (ns : Option String) (k : String) :
    ∀ v : PyVal, listChild ns k v = specOneItem ns k v
  | .vDict d => by
    simp only [listChild, specOneItem]
    rw [addElements_eq_spec ns d []]
    simp
  | .vNone => by simp [listChild, specOneItem]
  | .vStr s => by simp [listChild, specOneItem]
  | .vInt n => by simp [listChild, specOneItem]
  | .vBool b => by simp [listChild, specOneItem]
  | .vList items => by simp [listChild, specOneItem]

end

/-- C7.  `XmlBody.from_dict` (plugins tree): an empty mapping is a
`ValueError`; with `root_tag` omitted a warning is emitted exactly when
the mapping has more than one top-level key; and the built element
structure follows the spec-side fragment semantics (`specFragment`:
nested maps recurse, list values yield one sibling per item under the
same tag with no wrapper element, scalars become element text via `str`,
`None` an empty element), under the root element when a root tag is
given, as a bare fragment otherwise (empty fragment: `ValueError`). -/
theorem c7_from_dict_semantics (k : String) (v : PyVal) (rest : PyDict)
    (rootTag : Option String) (nspace nsPfx : Option String) (rt : String) :
    fromDict PyDict.nil rootTag nspace nsPfx =
      (.error (.valueError "data darf nicht leer sein"), false) ∧
    (fromDict (PyDict.cons k v rest) none nspace nsPfx).2 =
      decide (1 < (PyDict.cons k v rest).length) ∧
    fromDict (PyDict.cons k v rest) (some rt) nspace nsPfx =
      (.ok [ETElem.mk (if pyTruthy nspace then nspace else none) rt none
        (specFragment (if pyTruthy nspace then nspace else none)
          (PyDict.cons k v rest))], false) ∧
    (fromDict (PyDict.cons k v rest) none nspace nsPfx).1 =
      (if (specFragment (if pyTruthy nspace then nspace else none)
            (PyDict.cons k v rest)).isEmpty
       then .error (.valueError "Keine XML-Elemente in data gefunden")
       else .ok (specFragment (if pyTruthy nspace then nspace else none)
         (PyDict.cons k v rest))) := by
  refine ⟨rfl, ?_, ?_, ?_⟩
  · simp only [fromDict]
    split <;> split <;> rfl
  · simp only [fromDict, addElements_eq_spec, List.nil_append]
  · simp only [fromDict, addElements_eq_spec, List.nil_append]
    by_cases h : (specFragment (if pyTruthy nspace then nspace else none)
        (PyDict.cons k v rest)).isEmpty <;> simp [h]

/-! ## C9 — minified equality: helper lemmas -/

/-- `dropWhile` of an all-satisfying list is empty. -/
theorem dropWhile_all {p : Char → Bool} :
    ∀ l : List Char, l.all p → l.dropWhile p = []
  | [], _ => rfl
  | c :: t, h => by
    simp only [List.all_cons, Bool.and_eq_true] at h
    simp [List.dropWhile, h.1, dropWhile_all t h.2]

/-- A list whose `dropWhile` is empty satisfies the predicate
throughout. -/
theorem all_of_dropWhile_nil {p : Char → Bool} :
    ∀ l : List Char, l.dropWhile p = [] → l.all p
  | [], _ => rfl
  | c :: t, h => by
    by_cases hc : p c
    · simp only [List.dropWhile, hc] at h
      simp [hc, all_of_dropWhile_nil t h]
    · simp [List.dropWhile, hc] at h

/-- `dropWhile` over an append when the left part is not exhausted. -/
theorem dropWhile_append_stop {p : Char → Bool} :
    ∀ xs ys : List Char, xs.dropWhile p ≠ [] →
      (xs ++ ys).dropWhile p = xs.dropWhile p ++ ys
  | [], _, h => absurd rfl h
  | c :: t, ys, h => by
    by_cases hc : p c
    · rw [List.cons_append]
      simp only [List.dropWhile, hc] at h ⊢
      exact dropWhile_append_stop t ys h
    · simp [List.dropWhile, hc]

/-- `takeWhile` over an append when the left part is not exhausted. -/
theorem takeWhile_append_stop {p : Char → Bool} :
    ∀ xs ys : List Char, xs.dropWhile p ≠ [] →
      (xs ++ ys).takeWhile p = xs.takeWhile p
  | [], _, h => absurd rfl h
  | c :: t, ys, h => by
    by_cases hc : p c
    · simp only [List.dropWhile, hc] at h
      simp [List.takeWhile, hc, takeWhile_append_stop t ys h]
    · simp [List.takeWhile, hc]

/-- `dropWhile` over an append whose left part satisfies the
predicate. -/
theorem dropWhile_append_all {p : Char → Bool} :
    ∀ xs ys : List Char, xs.all p →
      (xs ++ ys).dropWhile p = ys.dropWhile p
  | [], _, _ => rfl
  | c :: t, ys, h => by
    simp only [List.all_cons, Bool.and_eq_true] at h
    simp [List.dropWhile, h.1, dropWhile_append_all t ys h.2]

/-- `takeWhile` over an append whose left part satisfies the
predicate. -/
theorem takeWhile_append_all {p : Char → Bool} :
    ∀ xs ys : List Char, xs.all p →
      (xs ++ ys).takeWhile p = xs ++ ys.takeWhile p
  | [], _, _ => rfl
  | c :: t, ys, h => by
    simp only [List.all_cons, Bool.and_eq_true] at h
    simp [List.takeWhile, h.1, takeWhile_append_all t ys h.2]

/-- Leading whitespace is stripped. -/
theorem stripChars_ws_left (l y : List Char) (h : l.all pySpace) :
    stripChars (l ++ y) = stripChars y := by
  unfold stripChars
  rw [dropWhile_append_all l y h]

/-- Trailing whitespace is stripped. -/
theorem stripChars_ws_right (y t : List Char) (h : t.all pySpace) :
    stripChars (y ++ t) = stripChars y := by
  unfold stripChars
  by_cases hy : y.dropWhile pySpace = []
  · rw [dropWhile_append_all y t (all_of_dropWhile_nil y hy), hy,
      dropWhile_all t h]
  · rw [dropWhile_append_stop y t hy, List.reverse_append,
      dropWhile_append_all _ _ (by simpa using h)]

/-- The minify scan copies a `>`-free prefix verbatim. -/
theorem minify_no_gt : ∀ (l x : List Char), (∀ c ∈ l, c ≠ '>') →
    minifyChars (l ++ x) = l ++ minifyChars x
  | [], x, _ => by simp
  | c :: t, x, h => by
    have hc : c ≠ '>' := h c (List.mem_cons_self _ _)
    rw [List.cons_append]
    simp only [minifyChars]
    rw [dif_neg (fun hh => hc hh.1),
      minify_no_gt t x (fun d hd => h d (List.mem_cons_of_mem _ hd))]
    simp

/-- `minifyChars` on the empty list. -/
theorem minify_nil : minifyChars [] = [] := by
  simp [minifyChars]

/-- A whitespace-only run is copied verbatim (whitespace is never
`>`). -/
theorem minify_ws_run (l x : List Char) (h : l.all pySpace) :
    minifyChars (l ++ x) = l ++ minifyChars x := by
  refine minify_no_gt l x fun c hc hgt => ?_
  have := List.all_eq_true.mp h c hc
  rw [hgt] at this
  simp [pySpace] at this

/-- The last element of a list is a member. -/
theorem mem_of_getLast?_eq {a : Char} :
    ∀ l : List Char, l.getLast? = some a → a ∈ l
  | [], h => by simp at h
  | [x], h => by
    simp only [List.getLast?_singleton, Option.some.injEq] at h
    simp [h]
  | x :: y :: t, h => by
    rw [show (x :: y :: t) = [x] ++ (y :: t) from rfl,
      List.getLast?_append_of_ne_nil [x] (by simp)] at h
    exact List.mem_cons_of_mem x (mem_of_getLast?_eq (y :: t) h)

/-- A list ending in `>` is not exhausted by the whitespace scan. -/
theorem dropWhile_ne_nil_of_gt (t : List Char)
    (h : t.getLast? = some '>') : t.dropWhile pySpace ≠ [] := by
  intro h0
  have hall := all_of_dropWhile_nil t h0
  have hmem : '>' ∈ t := mem_of_getLast?_eq t h
  have := List.all_eq_true.mp hall '>' hmem
  simp [pySpace] at this

/-- `>` directly followed by `<` is left alone. -/
theorem minify_gt_lt (v' : List Char) :
    minifyChars ('>' :: '<' :: v') = '>' :: '<' :: minifyChars v' := by
  simp only [minifyChars]
  rw [dif_neg (by simp [List.takeWhile, pySpace]),
    dif_neg (by simp)]

/-- `>`, a whitespace gap, then `<`: the gap collapses. -/
theorem minify_gt_ws_lt (w v' : List Char) (hw : w.all pySpace) :
    minifyChars ('>' :: (w ++ '<' :: v')) = '>' :: '<' :: minifyChars v' := by
  by_cases hw0 : w = []
  · subst hw0
    simpa using minify_gt_lt v'
  · have htk : (w ++ '<' :: v').takeWhile pySpace = w := by
      rw [takeWhile_append_all w _ hw]
      simp [List.takeWhile, pySpace]
    have hdr : (w ++ '<' :: v').dropWhile pySpace = '<' :: v' := by
      rw [dropWhile_append_all w _ hw]
      simp [List.dropWhile, pySpace]
    simp only [minifyChars]
    rw [dif_pos ⟨trivial, by rw [htk]; exact hw0, by rw [hdr]; rfl⟩, hdr]
    simp

/-- The whitespace-collapsing scan ignores an all-whitespace gap between
a chunk ending in `>` and a chunk starting with `<`. -/
theorem minify_gap_bound :
    ∀ n : Nat, ∀ u w v : List Char, u.length ≤ n → u ≠ [] →
      u.getLast? = some '>' → w.all pySpace → v.head? = some '<' →
      minifyChars (u ++ (w ++ v)) = minifyChars (u ++ v) := by
  intro n
  induction n with
  | zero =>
    intro u w v hlen hne _ _ _
    cases u with
    | nil => exact absurd rfl hne
    | cons c t => simp at hlen
  | succ n ih =>
    intro u w v hlen hne hlast hw hv
    obtain ⟨v', rfl⟩ : ∃ v', v = '<' :: v' := by
      cases v with
      | nil => simp at hv
      | cons a b =>
        simp only [List.head?_cons, Option.some.injEq] at hv
        exact ⟨b, by rw [hv]⟩
    cases u with
    | nil => exact absurd rfl hne
    | cons c t =>
      by_cases hc : c = '>'
      · subst hc
        by_cases ht0 : t = []
        · subst ht0
          rw [show ['>'] ++ (w ++ '<' :: v') = '>' :: (w ++ '<' :: v')
              from rfl,
            show ['>'] ++ '<' :: v' = '>' :: '<' :: v' from rfl,
            minify_gt_ws_lt w v' hw, minify_gt_lt v']
        · -- u = '>' :: t with t ≠ []
          have hlt : t.getLast? = some '>' := by
            rw [show ('>' :: t) = ['>'] ++ t from rfl,
              List.getLast?_append_of_ne_nil ['>'] ht0] at hlast
            exact hlast
          have hdne : t.dropWhile pySpace ≠ [] := dropWhile_ne_nil_of_gt t hlt
          have e1w : (t ++ (w ++ '<' :: v')).takeWhile pySpace
              = t.takeWhile pySpace := takeWhile_append_stop t _ hdne
          have e1v : (t ++ '<' :: v').takeWhile pySpace
              = t.takeWhile pySpace := takeWhile_append_stop t _ hdne
          have e2w : (t ++ (w ++ '<' :: v')).dropWhile pySpace
              = t.dropWhile pySpace ++ (w ++ '<' :: v') :=
            dropWhile_append_stop t _ hdne
          have e2v : (t ++ '<' :: v').dropWhile pySpace
              = t.dropWhile pySpace ++ '<' :: v' :=
            dropWhile_append_stop t _ hdne
          have hhead : ∀ X : List Char,
              (t.dropWhile pySpace ++ X).head? =
                (t.dropWhile pySpace).head? :=
            fun X => List.head?_append_of_ne_nil _ hdne
          have hlen' : t.length ≤ n := by
            simp only [List.length_cons] at hlen
            omega
          have hsplit : (t.takeWhile pySpace).length +
              (t.dropWhile pySpace).length = t.length := by
            conv_rhs => rw [← @List.takeWhile_append_dropWhile _ pySpace t]
            rw [List.length_append]
          by_cases hC : t.takeWhile pySpace ≠ [] ∧
              (t.dropWhile pySpace).head? = some '<'
          · obtain ⟨d', hd'⟩ : ∃ d', t.dropWhile pySpace = '<' :: d' := by
              cases hdw : t.dropWhile pySpace with
              | nil => exact absurd hdw hdne
              | cons a b =>
                have h2 := hC.2
                rw [hdw] at h2
                simp only [List.head?_cons, Option.some.injEq] at h2
                exact ⟨b, by rw [h2]⟩
            have hdl : (t.dropWhile pySpace).getLast? = some '>' := by
              have h3 := @List.getLast?_append_of_ne_nil _
                (t.takeWhile pySpace) (t.dropWhile pySpace) hdne
              rw [List.takeWhile_append_dropWhile] at h3
              rw [← h3]
              exact hlt
            have hd'ne : d' ≠ [] := by
              intro h0
              rw [hd', h0] at hdl
              simp at hdl
            have hd'last : d'.getLast? = some '>' := by
              rw [hd', show ('<' :: d') = ['<'] ++ d' from rfl,
                List.getLast?_append_of_ne_nil ['<'] hd'ne] at hdl
              exact hdl
            have hd'len : d'.length ≤ n := by
              have : (t.dropWhile pySpace).length ≤ t.length := by omega
              rw [hd'] at this
              simp only [List.length_cons] at this
              omega
            simp only [List.cons_append, minifyChars]
            rw [dif_pos ⟨trivial, by rw [e1w]; exact hC.1,
                by rw [e2w, hhead]; exact hC.2⟩,
              dif_pos ⟨trivial, by rw [e1v]; exact hC.1,
                by rw [e2v, hhead]; exact hC.2⟩,
              e2w, e2v, hd']
            simp only [List.cons_append, List.tail_cons]
            exact congrArg (fun z => '>' :: '<' :: z)
              (ih d' w ('<' :: v') hd'len hd'ne hd'last hw rfl)
          · simp only [List.cons_append, minifyChars]
            rw [dif_neg (fun hh => hC ⟨by rw [← e1w]; exact hh.2.1,
                by have h3 := hh.2.2; rw [e2w, hhead] at h3; exact h3⟩),
              dif_neg (fun hh => hC ⟨by rw [← e1v]; exact hh.2.1,
                by have h3 := hh.2.2; rw [e2v, hhead] at h3; exact h3⟩)]
            exact congrArg (fun z => '>' :: z)
              (ih t w ('<' :: v') hlen' ht0 hlt hw rfl)
      · have ht0 : t ≠ [] := by
          intro h0
          rw [h0] at hlast
          simp only [List.getLast?_singleton, Option.some.injEq] at hlast
          exact hc hlast
        have hlt : t.getLast? = some '>' := by
          rw [show (c :: t) = [c] ++ t from rfl,
            List.getLast?_append_of_ne_nil [c] ht0] at hlast
          exact hlast
        have hlen' : t.length ≤ n := by
          simp only [List.length_cons] at hlen
          omega
        simp only [List.cons_append, minifyChars]
        rw [dif_neg (fun hh => hc hh.1), dif_neg (fun hh => hc hh.1)]
        exact congrArg (fun z => c :: z)
          (ih t w ('<' :: v') hlen' ht0 hlt hw rfl)

/-- Trailing whitespace passes through the minify scan unchanged. -/
theorem minify_ws_end_bound :
    ∀ n : Nat, ∀ x t : List Char, x.length ≤ n → t.all pySpace →
      minifyChars (x ++ t) = minifyChars x ++ t := by
  intro n
  induction n with
  | zero =>
    intro x t hlen ht
    cases x with
    | nil =>
      simpa [minify_nil] using minify_ws_run t [] ht
    | cons c x' => simp at hlen
  | succ n ih =>
    intro x t hlen ht
    cases x with
    | nil => simpa [minify_nil] using minify_ws_run t [] ht
    | cons c x' =>
      have hlen' : x'.length ≤ n := by
        simp only [List.length_cons] at hlen
        omega
      by_cases hc : c = '>'
      · subst hc
        by_cases hxe : x'.dropWhile pySpace = []
        · have hdt : (x' ++ t).dropWhile pySpace = [] := by
            rw [dropWhile_append_all x' t (all_of_dropWhile_nil x' hxe),
              dropWhile_all t ht]
          simp only [List.cons_append, minifyChars]
          rw [dif_neg (fun hh => by rw [hdt] at hh; simp at hh),
            dif_neg (fun hh => by rw [hxe] at hh; simp at hh),
            ih x' t hlen' ht]
          simp
        · have e1 : (x' ++ t).takeWhile pySpace = x'.takeWhile pySpace :=
            takeWhile_append_stop x' t hxe
          have e2 : (x' ++ t).dropWhile pySpace = x'.dropWhile pySpace ++ t :=
            dropWhile_append_stop x' t hxe
          have hhead : (x'.dropWhile pySpace ++ t).head? =
              (x'.dropWhile pySpace).head? :=
            List.head?_append_of_ne_nil _ hxe
          have hsplit : (x'.takeWhile pySpace).length +
              (x'.dropWhile pySpace).length = x'.length := by
            conv_rhs => rw [← @List.takeWhile_append_dropWhile _ pySpace x']
            rw [List.length_append]
          by_cases hC : x'.takeWhile pySpace ≠ [] ∧
              (x'.dropWhile pySpace).head? = some '<'
          · obtain ⟨d', hd'⟩ : ∃ d', x'.dropWhile pySpace = '<' :: d' := by
              cases hdw : x'.dropWhile pySpace with
              | nil => exact absurd hdw hxe
              | cons a b =>
                have h2 := hC.2
                rw [hdw] at h2
                simp only [List.head?_cons, Option.some.injEq] at h2
                exact ⟨b, by rw [h2]⟩
            have hd'len : d'.length ≤ n := by
              have h5 : (x'.dropWhile pySpace).length ≤ x'.length := by omega
              rw [hd'] at h5
              simp only [List.length_cons] at h5
              omega
            simp only [List.cons_append, minifyChars]
            rw [dif_pos ⟨trivial, by rw [e1]; exact hC.1,
                by rw [e2, hhead]; exact hC.2⟩,
              dif_pos ⟨trivial, hC.1, hC.2⟩, e2, hd']
            simp only [List.cons_append, List.tail_cons]
            rw [ih d' t hd'len ht]
          · simp only [List.cons_append, minifyChars]
            rw [dif_neg (fun hh => hC ⟨by rw [← e1]; exact hh.2.1,
                by have h3 := hh.2.2; rw [e2, hhead] at h3; exact h3⟩),
              dif_neg (fun hh => hC ⟨hh.2.1, hh.2.2⟩),
              ih x' t hlen' ht]
            simp
      · simp only [List.cons_append, minifyChars]
        rw [dif_neg (fun hh => hc hh.1), dif_neg (fun hh => hc hh.1),
          ih x' t hlen' ht]
        simp

/-- The pieces of a `pieceOk` chunk. -/
theorem pieceOk_parts {q : List Char} (h : pieceOk q = true) :
    q.head? = some '<' ∧ q.getLast? = some '>' ∧ q ≠ [] := by
  simp only [pieceOk, Bool.and_eq_true, decide_eq_true_eq] at h
  refine ⟨h.1, h.2, ?_⟩
  intro h0
  rw [h0] at h
  simp at h

/-- Collapsing all inter-element gaps: minifying an assembly of pieces
with whitespace gaps equals minifying the gapless concatenation. -/
theorem minify_core :
    ∀ (pieces : List (List Char)) (gaps : List (List Char)) (p : List Char),
      p ≠ [] → p.getLast? = some '>' →
      (∀ q ∈ pieces, pieceOk q = true) → (∀ g ∈ gaps, wsOnly g = true) →
      minifyChars (p ++ coreFrom pieces gaps) =
        minifyChars (p ++ pieces.join) := by
  intro pieces
  induction pieces with
  | nil => intro gaps p _ _ _ _; cases gaps <;> simp [coreFrom]
  | cons q qs ihp =>
    intro gaps p hpne hplast hq hg
    obtain ⟨hqh, hql, hqne⟩ := pieceOk_parts (hq q (List.mem_cons_self _ _))
    have hpq_ne : p ++ q ≠ [] := by simp [hqne]
    have hpq_last : (p ++ q).getLast? = some '>' := by
      rw [List.getLast?_append_of_ne_nil p hqne]
      exact hql
    have hq' : ∀ r ∈ qs, pieceOk r = true :=
      fun r hr => hq r (List.mem_cons_of_mem _ hr)
    cases gaps with
    | nil =>
      have h1 := ihp [] (p ++ q) hpq_ne hpq_last hq' (by simp)
      simp only [coreFrom]
      rw [show (q :: qs).join = q ++ qs.join from rfl,
        ← List.append_assoc p q (coreFrom qs []),
        ← List.append_assoc p q qs.join]
      exact h1
    | cons g gs =>
      have hgw : g.all pySpace := by
        have := hg g (List.mem_cons_self _ _)
        simpa [wsOnly] using this
      have hg' : ∀ g' ∈ gs, wsOnly g' = true :=
        fun g' hgg => hg g' (List.mem_cons_of_mem _ hgg)
      have hqhead : (q ++ coreFrom qs gs).head? = some '<' := by
        rw [List.head?_append_of_ne_nil q hqne]
        exact hqh
      have hgap := minify_gap_bound p.length p g (q ++ coreFrom qs gs)
        le_rfl hpne hplast hgw hqhead
      have h1 := ihp gs (p ++ q) hpq_ne hpq_last hq' hg'
      simp only [coreFrom]
      rw [show (q :: qs).join = q ++ qs.join from rfl,
        List.append_assoc g q (coreFrom qs gs), hgap,
        ← List.append_assoc p q (coreFrom qs gs),
        ← List.append_assoc p q qs.join]
      exact h1

/-- Normal form of an assembled string under minify-then-strip: the
whitespace choices drop out entirely. -/
theorem minify_normal (lead first : List Char)
    (pieces gaps : List (List Char)) (trail : List Char)
    (hlead : wsOnly lead = true) (hfirst : pieceOk first = true)
    (hp : ∀ q ∈ pieces, pieceOk q = true)
    (hg : ∀ g ∈ gaps, wsOnly g = true) (htrail : wsOnly trail = true) :
    stripChars (minifyChars (assembleWs lead first pieces gaps trail)) =
      stripChars (minifyChars (first ++ pieces.join)) := by
  obtain ⟨hfh, hfl, hfne⟩ := pieceOk_parts hfirst
  have hleadws : lead.all pySpace := by simpa [wsOnly] using hlead
  have htrailws : trail.all pySpace := by simpa [wsOnly] using htrail
  unfold assembleWs
  simp only [List.append_assoc]
  rw [minify_ws_run lead _ hleadws, stripChars_ws_left lead _ hleadws,
    ← List.append_assoc first (coreFrom pieces gaps) trail,
    minify_ws_end_bound (first ++ coreFrom pieces gaps).length _ trail
      le_rfl htrailws,
    stripChars_ws_right _ trail htrailws,
    minify_core pieces gaps first hfne hfl hp hg]

/-- C9.  `XmlBody` equality is reflexive on every valid body, and two
`XmlBody` values whose underlying strings differ only by insignificant
whitespace between elements (same markup pieces, arbitrary whitespace
gaps and padding) compare equal under the minified `__eq__`. -/
theorem c9_minify_equality :
    (∀ s : String, xmlBodyValid s = true → xmlBodyEq s s = true) ∧
    (∀ (lead first : List Char) (pieces gaps : List (List Char))
        (trail lead' trail' : List Char) (gaps' : List (List Char)),
      pieceOk first = true → (∀ q ∈ pieces, pieceOk q = true) →
      wsOnly lead = true → (∀ g ∈ gaps, wsOnly g = true) →
      wsOnly trail = true → wsOnly lead' = true →
      (∀ g ∈ gaps', wsOnly g = true) → wsOnly trail' = true →
      xmlBodyValid (String.mk (assembleWs lead first pieces gaps trail)) =
        true →
      xmlBodyValid (String.mk (assembleWs lead' first pieces gaps' trail')) =
        true →
      xmlBodyEq (String.mk (assembleWs lead first pieces gaps trail))
        (String.mk (assembleWs lead' first pieces gaps' trail')) = true) := by
  constructor
  · intro s _
    simp [xmlBodyEq]
  · intro lead first pieces gaps trail lead' trail' gaps'
      hfirst hp hlead hg htrail hlead' hg' htrail' _ _
    have h1 := minify_normal lead first pieces gaps trail
      hlead hfirst hp hg htrail
    have h2 := minify_normal lead' first pieces gaps' trail'
      hlead' hfirst hp hg' htrail'
    have hmin : xmlBodyMinify
        (String.mk (assembleWs lead first pieces gaps trail)) =
        xmlBodyMinify
          (String.mk (assembleWs lead' first pieces gaps' trail')) := by
      show String.mk (stripChars (minifyChars
          (assembleWs lead first pieces gaps trail))) =
        String.mk (stripChars (minifyChars
          (assembleWs lead' first pieces gaps' trail')))
      rw [h1, h2]
    simp [xmlBodyEq, hmin]

/-- C9 witness: `<a><b>x</b></a>` written compactly and with newline
and indentation whitespace between the elements compares equal; both
strings are valid XML bodies. -/
theorem c9_minify_equality_witness :
    xmlBodyEq "<a><b>x</b></a>" "<a>\n  <b>x</b>\n</a>" = true := by
  have h := c9_minify_equality.2 [] "<a>".data
    ["<b>x</b>".data, "</a>".data] [[], []] [] [] [] [['\n', ' ', ' '], ['\n']]
    (by decide) (by decide) (by decide) (by decide) (by decide) (by decide)
    (by decide) (by decide) (by decide) (by decide)
  simpa using h


/-! ## C4: envelope validity (round-trip development) -/

/-! ## Round-trip lemmas -/

/-- XML name characters are not whitespace. -/
theorem pySpace_of_nameChar {c : Char} (h : isNameChar c = true) :
    pySpace c = false := by
  by_contra h2
  rw [Bool.not_eq_false] at h2
  unfold pySpace at h2
  simp only [Bool.or_eq_true, decide_eq_true_eq] at h2
  rcases h2 with ((((rfl | rfl) | rfl) | rfl) | rfl) | rfl <;>
    exact absurd h (by decide)

/-- `takeName` eats exactly a block of name characters. -/
theorem takeName_append (n r : List Char)
    (hn : ∀ c ∈ n, isNameChar c = true)
    (hr : ∀ c l, r = c :: l → isNameChar c = false) :
    takeName (n ++ r) = (n, r) := by
  induction n with
  | nil =>
    cases r with
    | nil => rfl
    | cons c l =>
      simp only [List.nil_append, takeName, hr c l rfl]
      simp
  | cons a n ih =>
    have ha : isNameChar a = true := hn a (by simp)
    simp only [List.cons_append, takeName, ha, if_true, List.append_eq]
    rw [ih (fun c hc => hn c (by simp [hc]))]

/-- `takeTill` stops exactly at the first stop character. -/
theorem takeTill_append (stop : Char) (v r : List Char)
    (hv : ∀ c ∈ v, c ≠ stop) :
    takeTill stop (v ++ stop :: r) = (v, stop :: r) := by
  induction v with
  | nil => simp [takeTill]
  | cons a v ih =>
    have ha : a ≠ stop := hv a (by simp)
    simp only [List.cons_append, takeTill, ha, if_false, if_neg ha,
      List.append_eq]
    rw [ih (fun c hc => hv c (by simp [hc]))]

/-- `skipWs` does nothing on a non-space head. -/
theorem skipWs_cons_of_not {c : Char} (l : List Char)
    (h : pySpace c = false) : skipWs (c :: l) = c :: l := by
  simp [skipWs, List.dropWhile_cons, h]

/-- `skipWs` drops a space head. -/
theorem skipWs_cons_of_sp {c : Char} (l : List Char)
    (h : pySpace c = true) : skipWs (c :: l) = skipWs l := by
  simp [skipWs, List.dropWhile_cons, h]

/-- `serAttrs` on nil. -/
theorem serAttrs_nil : serAttrs [] = [] := rfl

/-- `serAttrs` on cons. -/
theorem serAttrs_cons (a : List Char × List Char)
    (r : List (List Char × List Char)) :
    serAttrs (a :: r) =
      ' ' :: a.1 ++ '=' :: '"' :: a.2 ++ '"' :: serAttrs r := rfl

/-- One `pAttrs` step across a serialised ` name="value"` attribute. -/
theorem pAttrs_step (f : Nat) (n v r : List Char)
    (hn1 : n ≠ []) (hn2 : ∀ c ∈ n, isNameChar c = true)
    (hv : ∀ c ∈ v, c ≠ '"') :
    pAttrs (f + 1) (' ' :: (n ++ '=' :: '"' :: (v ++ '"' :: r))) =
      (match pAttrs f r with
       | none => none
       | some p => some ((n, v) :: p.1, p.2)) := by
  obtain ⟨c, n', rfl⟩ : ∃ c n', n = c :: n' := by
    cases n with
    | nil => exact absurd rfl hn1
    | cons c n' => exact ⟨c, n', rfl⟩
  have hc : isNameChar c = true := hn2 c (by simp)
  simp only [pAttrs]
  rw [skipWs_cons_of_sp _ (by decide)]
  simp only [List.cons_append]
  rw [skipWs_cons_of_not _ (pySpace_of_nameChar hc)]
  split
  · rename_i heq
    exfalso
    simp only [List.cons.injEq] at heq
    obtain ⟨rfl, -⟩ := heq
    exact absurd hc (by decide)
  · rename_i heq
    exfalso
    simp only [List.cons.injEq] at heq
    obtain ⟨rfl, -⟩ := heq
    exact absurd hc (by decide)
  · rw [← List.cons_append,
      takeName_append (c :: n') ('=' :: '"' :: (v ++ '"' :: r)) hn2
        (by intro d l hd; cases hd; decide)]
    simp
    simp only [takeTill_append '"' v r hv]
    cases pAttrs f r with
    | none => rfl
    | some p => rfl

/-- `pAttrs` round-trip over a full serialised attribute list. -/
theorem pAttrs_roundtrip (attrs : List (List Char × List Char))
    (rest : List Char) (h : wfAttrs attrs = true) :
    ∀ fuel, needA attrs ≤ fuel →
      pAttrs fuel (serAttrs attrs ++ '>' :: rest) =
        some (attrs, '>' :: rest) := by
  induction attrs with
  | nil =>
    intro fuel hf
    obtain ⟨f, rfl⟩ : ∃ f, fuel = f + 1 := by
      cases fuel with
      | zero => simp [needA] at hf
      | succ f => exact ⟨f, rfl⟩
    rw [serAttrs_nil, List.nil_append]
    simp only [pAttrs]
    rw [skipWs_cons_of_not _ (by decide)]
    rfl
  | cons a more ih =>
    intro fuel hf
    obtain ⟨f, rfl⟩ : ∃ f, fuel = f + 1 := by
      cases fuel with
      | zero => simp [needA] at hf
      | succ f => exact ⟨f, rfl⟩
    have hf' : needA more ≤ f := by
      simp only [needA, List.length_cons] at hf ⊢
      omega
    obtain ⟨⟨hn1, hn2⟩, hv, hmore⟩ :
        ((¬a.1.isEmpty = true ∧ a.1.all isNameChar = true) ∧
          a.2.all (fun c => decide (c ≠ '"')) = true ∧
          wfAttrs more = true) := by
      have h' := h
      rw [wfAttrs] at h'
      simp only [Bool.and_eq_true, Bool.not_eq_true', Bool.not_eq_true] at h'
      refine ⟨⟨?_, h'.1.1.2⟩, h'.1.2, h'.2⟩
      simp [h'.1.1.1]
    rw [serAttrs_cons]
    simp only [List.cons_append, List.append_assoc]
    rw [pAttrs_step f a.1 a.2 (serAttrs more ++ '>' :: rest)
      (by simpa using hn1)
      (by intro c hc; exact (List.all_eq_true.mp hn2 c hc))
      (by intro c hc; exact of_decide_eq_true (List.all_eq_true.mp hv c hc))]
    rw [ih hmore f hf']

/-- Normal form of a serialised element followed by a continuation. -/
theorem serE_elem_norm (tag : List Char)
    (attrs : List (List Char × List Char)) (ch : List RawXml)
    (rest : List Char) :
    serE (.elem tag attrs ch) ++ rest =
      '<' :: (tag ++ (serAttrs attrs ++
        '>' :: (serList ch ++ '<' :: '/' :: (tag ++ '>' :: rest)))) := by
  simp [serE, List.append_assoc]

/-- The character after a serialised attribute list is never a name
character. -/
theorem serAttrs_head_not_name (attrs : List (List Char × List Char))
    (l : List Char) :
    ∀ c m, serAttrs attrs ++ '>' :: l = c :: m → isNameChar c = false := by
  cases attrs with
  | nil =>
    intro c m h
    rw [serAttrs_nil, List.nil_append] at h
    cases h
    decide
  | cons a r =>
    intro c m h
    rw [serAttrs_cons] at h
    simp only [List.cons_append, List.cons.injEq] at h
    obtain ⟨rfl, -⟩ := h
    decide

/-- Decomposition of content well-formedness at a cons. -/
theorem wfC_cons (x : RawXml) (xs : List RawXml)
    (h : wfC (x :: xs) = true) :
    wfN x = true ∧ wfC xs = true ∧
      ¬(isTextNode x = true ∧ headIsText xs = true) := by
  rw [wfC] at h
  simp only [Bool.and_eq_true, Bool.not_eq_true'] at h
  refine ⟨h.1.1, h.2, fun hc => ?_⟩
  rw [hc.1, hc.2] at h
  simp at h

mutual

/-- Parsing a serialised well-formed element returns exactly that
element, leaving the continuation untouched. -/
theorem pElement_roundtrip (t : RawXml) :
    ∀ fuel rest, wfE t = true → needE t ≤ fuel →
      pElement fuel (serE t ++ rest) = some (t, rest) := by
  cases t with
  | text s =>
    intro fuel rest hwf hneed
    rw [wfE] at hwf
    cases hwf
  | elem tag attrs children =>
    intro fuel rest hwf hneed
    rw [wfE, wfN] at hwf
    simp only [Bool.and_eq_true, Bool.not_eq_true'] at hwf
    obtain ⟨⟨⟨htag1, htag2⟩, hattrs⟩, hch⟩ := hwf
    have htag2' : ∀ c ∈ tag, isNameChar c = true :=
      fun c hc => List.all_eq_true.mp htag2 c hc
    obtain ⟨f, rfl⟩ : ∃ f, fuel = f + 1 := by
      cases fuel with
      | zero => simp [needE] at hneed
      | succ f => exact ⟨f, rfl⟩
    have hfa : needA attrs ≤ f := by
      rw [needE] at hneed
      omega
    have hfc : needC children ≤ f := by
      rw [needE] at hneed
      omega
    rw [serE_elem_norm]
    simp only [pElement]
    rw [takeName_append tag _ htag2'
      (serAttrs_head_not_name attrs _)]
    simp
    refine ⟨by simpa using htag1, ?_⟩
    rw [pAttrs_roundtrip attrs _ hattrs f hfa]
    simp
    rw [pContent_roundtrip children f _ (tag ++ '>' :: rest) hch hfc rfl]
    simp
    rw [takeName_append tag ('>' :: rest) htag2'
      (by intro c m h; cases h; decide)]
    simp
    rw [skipWs_cons_of_not _ (by decide)]
    rfl

/-- Parsing serialised well-formed content stops exactly at the closing
tag that follows it. -/
theorem pContent_roundtrip (ns : List RawXml) :
    ∀ fuel rest rest', wfC ns = true → needC ns ≤ fuel →
      rest = '<' :: '/' :: rest' →
      pContent fuel (serList ns ++ rest) = some (ns, rest) := by
  cases ns with
  | nil =>
    intro fuel rest rest' hwf hneed hrest
    subst hrest
    obtain ⟨f, rfl⟩ : ∃ f, fuel = f + 1 := by
      cases fuel with
      | zero => simp [needC] at hneed
      | succ f => exact ⟨f, rfl⟩
    rw [serList, List.nil_append]
    simp only [pContent]
  | cons x xs =>
    intro fuel rest rest' hwf hneed hrest
    obtain ⟨hx, hxs, hadj⟩ := wfC_cons x xs hwf
    cases x with
    | text s =>
      rw [wfN] at hx
      simp only [Bool.and_eq_true, Bool.not_eq_true'] at hx
      obtain ⟨hs1, hs2⟩ := hx
      obtain ⟨f, rfl⟩ : ∃ f, fuel = f + 1 := by
        cases fuel with
        | zero => simp [needC] at hneed
        | succ f => exact ⟨f, rfl⟩
      have hfc : needC xs ≤ f := by
        rw [needC] at hneed
        omega
      obtain ⟨c, s', rfl⟩ : ∃ c s', s = c :: s' := by
        cases s with
        | nil => simp at hs1
        | cons c s' => exact ⟨c, s', rfl⟩
      have hc : c ≠ '<' :=
        of_decide_eq_true (List.all_eq_true.mp hs2 c (by simp))
      obtain ⟨L, hL⟩ : ∃ L, serList xs ++ rest = '<' :: L := by
        cases xs with
        | nil =>
          subst hrest
          exact ⟨'/' :: rest', by rw [serList, List.nil_append]⟩
        | cons y ys =>
          cases y with
          | text s2 => exact absurd ⟨rfl, rfl⟩ hadj
          | elem tag2 a2 c2 =>
            refine ⟨(tag2 ++ (serAttrs a2 ++ '>' :: (serList c2 ++
              '<' :: '/' :: (tag2 ++ ['>'])))) ++ (serList ys ++ rest), ?_⟩
            rw [serList]
            simp [serE, List.append_assoc]
      rw [serList]
      simp only [serE, List.cons_append, List.append_assoc]
      simp only [pContent]
      split
      · rename_i heq
        exact absurd heq (by simp)
      · rename_i heq
        exfalso
        simp only [List.cons.injEq] at heq
        exact hc heq.1
      · rename_i heq
        exfalso
        simp only [List.cons.injEq] at heq
        exact hc heq.1
      · rw [hL, ← List.cons_append, takeTill_append '<' (c :: s') L
          (fun d hd => of_decide_eq_true (List.all_eq_true.mp hs2 d hd))]
        simp
        rw [← hL, pContent_roundtrip xs f rest rest' hxs hfc hrest]
    | elem tag2 a2 c2 =>
      obtain ⟨f, rfl⟩ : ∃ f, fuel = f + 1 := by
        cases fuel with
        | zero => simp [needC] at hneed
        | succ f => exact ⟨f, rfl⟩
      have hfe : needE (.elem tag2 a2 c2) ≤ f := by
        rw [needC] at hneed
        omega
      have hfc : needC xs ≤ f := by
        rw [needC] at hneed
        omega
      have hxE : wfE (.elem tag2 a2 c2) = true := by
        rw [wfE]
        exact hx
      have htag2ne : ¬tag2.isEmpty = true := by
        rw [wfN] at hx
        simp only [Bool.and_eq_true, Bool.not_eq_true'] at hx
        simp [hx.1.1.1]
      obtain ⟨d, t2', rfl⟩ : ∃ d t2', tag2 = d :: t2' := by
        cases tag2 with
        | nil => simp at htag2ne
        | cons d t2' => exact ⟨d, t2', rfl⟩
      have hd : isNameChar d = true := by
        rw [wfN] at hx
        simp only [Bool.and_eq_true] at hx
        exact List.all_eq_true.mp hx.1.1.2 d (by simp)
      rw [serList, List.append_assoc, serE_elem_norm]
      simp only [pContent]
      split
      · rename_i heq
        exact absurd heq (by simp)
      · rename_i heq
        exfalso
        simp only [List.cons_append, List.cons.injEq, true_and] at heq
        exact absurd hd (by rw [heq.1]; decide)
      · rename_i heq
        rw [← serE_elem_norm,
          pElement_roundtrip (.elem (d :: t2') a2 c2) f _ hxE hfe]
        simp
        rw [pContent_roundtrip xs f rest rest' hxs hfc hrest]
      · rename_i hne1 hne2 hne3
        exfalso
        simp only [List.cons.injEq] at hne3
        exact hne2 hne3.1.symm
end

/-- Serialised attributes are at least as long as the attribute list. -/
theorem serAttrs_length_ge (attrs : List (List Char × List Char)) :
    attrs.length ≤ (serAttrs attrs).length := by
  induction attrs with
  | nil => simp [serAttrs_nil]
  | cons a r ih =>
    rw [serAttrs_cons]
    simp only [List.length_cons, List.length_append]
    omega

/-- A serialised element is never empty. -/
theorem serE_elem_length_pos (tag : List Char)
    (attrs : List (List Char × List Char)) (ch : List RawXml) :
    1 ≤ (serE (.elem tag attrs ch)).length := by
  rw [serE]
  simp

mutual

/-- The fuel needed for a well-formed node is bounded by its serialised
length. -/
theorem needE_le_length (t : RawXml) :
    wfN t = true → needE t ≤ (serE t).length := by
  cases t with
  | text s =>
    intro h
    rw [wfN] at h
    simp only [Bool.and_eq_true, Bool.not_eq_true'] at h
    rw [needE, serE]
    have : s ≠ [] := by simpa using h.1
    cases s with
    | nil => exact absurd rfl this
    | cons c s' => simp
  | elem tag attrs children =>
    intro h
    rw [wfN] at h
    simp only [Bool.and_eq_true, Bool.not_eq_true'] at h
    have h1 := needC_le_length children h.2
    have h2 := serAttrs_length_ge attrs
    rw [needE, needA, serE]
    simp only [List.length_append, List.length_cons]
    omega

/-- The fuel needed for well-formed content is bounded by its serialised
length plus one. -/
theorem needC_le_length (ns : List RawXml) :
    wfC ns = true → needC ns ≤ (serList ns).length + 1 := by
  cases ns with
  | nil =>
    intro h
    rw [needC, serList]
    simp
  | cons x xs =>
    intro h
    obtain ⟨hx, hxs, -⟩ := wfC_cons x xs h
    have ihx := needC_le_length xs hxs
    cases x with
    | text s =>
      rw [wfN] at hx
      simp only [Bool.and_eq_true, Bool.not_eq_true'] at hx
      have hs : s ≠ [] := by simpa using hx.1
      rw [needC, serList, serE]
      simp only [List.length_append]
      cases s with
      | nil => exact absurd rfl hs
      | cons c s' =>
        simp only [List.length_cons]
        omega
    | elem tag a2 c2 =>
      have he := needE_le_length (.elem tag a2 c2) hx
      have hp := serE_elem_length_pos tag a2 c2
      rw [needC, serList]
      simp only [List.length_append]
      omega
end

/-- A binding found in the head of an environment survives extension. -/
theorem lookupNs_append (a b : List (String × String)) (p : String)
    (u : String) (h : lookupNs a p = some u) :
    lookupNs (a ++ b) p = some u := by
  induction a with
  | nil => simp [lookupNs] at h
  | cons q rest ih =>
    rw [lookupNs] at h
    rw [List.cons_append, lookupNs]
    by_cases hq : q.1 = p
    · rw [if_pos hq] at h ⊢
      exact h
    · rw [if_neg hq] at h ⊢
      exact ih h

mutual

/-- Namespace resolution is stable under extending the outer
environment with additional bindings. -/
theorem resolveR_ext (t : RawXml) :
    ∀ env ext defNs x, resolveR env defNs t = some x →
      resolveR (env ++ ext) defNs t = some x := by
  cases t with
  | text s =>
    intro env ext defNs x h
    rw [resolveR] at h ⊢
    exact h
  | elem tag attrs children =>
    intro env ext defNs x h
    rw [resolveR] at h ⊢
    rcases hst : (splitTag tag).1 with _ | p
    · simp only [hst] at h ⊢
      rcases hcs : resolveList (nsDecls attrs ++ env)
          (match nsDefault attrs with
           | some d => d
           | none => defNs) children with _ | cs
      · simp only [hcs] at h
        exact Option.noConfusion h
      · have h2 := resolveList_ext children (nsDecls attrs ++ env) ext _ _ hcs
        rw [List.append_assoc] at h2
        simp only [hcs] at h
        simp only [h2]
        exact h
    · simp only [hst] at h ⊢
      rcases hlk : lookupNs (nsDecls attrs ++ env) (String.mk p) with _ | uri
      · simp only [hlk] at h
        exact Option.noConfusion h
      · have hlk2 : lookupNs (nsDecls attrs ++ (env ++ ext)) (String.mk p) =
            some uri := by
          rw [← List.append_assoc]
          exact lookupNs_append _ ext _ _ hlk
        simp only [hlk] at h
        simp only [hlk2]
        rcases hcs : resolveList (nsDecls attrs ++ env)
            (match nsDefault attrs with
             | some d => d
             | none => defNs) children with _ | cs
        · simp only [hcs] at h
          exact Option.noConfusion h
        · have h2 := resolveList_ext children (nsDecls attrs ++ env) ext _ _ hcs
          rw [List.append_assoc] at h2
          simp only [hcs] at h
          simp only [h2]
          exact h

/-- List version of `resolveR_ext`. -/
theorem resolveList_ext (ns : List RawXml) :
    ∀ env ext defNs xs, resolveList env defNs ns = some xs →
      resolveList (env ++ ext) defNs ns = some xs := by
  cases ns with
  | nil =>
    intro env ext defNs xs h
    rw [resolveList] at h ⊢
    exact h
  | cons c rest =>
    intro env ext defNs xs h
    rw [resolveList] at h ⊢
    rcases hc : resolveR env defNs c with _ | x
    · simp only [hc] at h
      exact Option.noConfusion h
    · simp only [hc] at h
      simp only [resolveR_ext c env ext defNs x hc]
      rcases hr : resolveList env defNs rest with _ | xs2
      · simp only [hr] at h
        exact Option.noConfusion h
      · simp only [hr] at h
        simp only [resolveList_ext rest env ext defNs xs2 hr]
        exact h
end

/-- A well-formed element serialises to a non-empty string. -/
theorem serE_ne_nil_of_wfE (t : RawXml) (h : wfE t = true) : serE t ≠ [] := by
  cases t with
  | text s =>
    rw [wfE] at h
    cases h
  | elem tag attrs ch =>
    rw [serE]
    simp

/-- Well-formed elements are element nodes. -/
theorem wfE_elem_shape (t : RawXml) (h : wfE t = true) :
    ∃ tag attrs ch, t = .elem tag attrs ch := by
  cases t with
  | text s =>
    rw [wfE] at h
    cases h
  | elem tag attrs ch => exact ⟨tag, attrs, ch, rfl⟩

/-- Introduction rule for content well-formedness. -/
theorem wfC_cons_intro (x : RawXml) (xs : List RawXml)
    (h1 : wfN x = true) (h2 : isTextNode x = true → headIsText xs = false)
    (h3 : wfC xs = true) : wfC (x :: xs) = true := by
  rw [wfC]
  cases hx : isTextNode x
  · simp [h1, h3]
  · simp [h1, h3, h2 hx]

/-- The wrapped body section is a well-formed node. -/
theorem wfN_envBodyRaw (rbt : RawXml) (h : wfE rbt = true) :
    wfN (envBodyRaw rbt) = true := by
  obtain ⟨tag2, a2, c2, rfl⟩ := wfE_elem_shape rbt h
  have hN : wfN (.elem tag2 a2 c2) = true := by
    rw [wfE] at h
    exact h
  have hC : wfC [RawXml.text ['\n'], .elem tag2 a2 c2,
      RawXml.text ['\n']] = true := by
    refine wfC_cons_intro _ _ (by decide) (fun _ => ?_) ?_
    · rfl
    refine wfC_cons_intro _ _ hN (fun hx => by simp [isTextNode] at hx) ?_
    refine wfC_cons_intro _ _ (by decide) (fun _ => ?_) ?_
    · rfl
    decide
  rw [envBodyRaw, wfN]
  simp only [Bool.and_eq_true]
  exact ⟨⟨⟨by decide, by decide⟩, by decide⟩, hC⟩

/-- The wrapped header section is a well-formed node. -/
theorem wfN_envHeaderRaw (rht : RawXml) (h : wfE rht = true) :
    wfN (envHeaderRaw rht) = true := by
  obtain ⟨tag2, a2, c2, rfl⟩ := wfE_elem_shape rht h
  have hN : wfN (.elem tag2 a2 c2) = true := by
    rw [wfE] at h
    exact h
  have hC : wfC [RawXml.text ['\n'], .elem tag2 a2 c2,
      RawXml.text ['\n']] = true := by
    refine wfC_cons_intro _ _ (by decide) (fun _ => ?_) ?_
    · rfl
    refine wfC_cons_intro _ _ hN (fun hx => by simp [isTextNode] at hx) ?_
    refine wfC_cons_intro _ _ (by decide) (fun _ => ?_) ?_
    · rfl
    decide
  rw [envHeaderRaw, wfN]
  simp only [Bool.and_eq_true]
  exact ⟨⟨⟨by decide, by decide⟩, by decide⟩, hC⟩

/-- The envelope attribute list is well-formed for both versions. -/
theorem wfAttrs_env (version : SoapVersion) :
    wfAttrs [("xmlns:soap".data, version.nsUri.data)] = true := by
  cases version <;> decide

/-- Element well-formedness implies node well-formedness. -/
theorem wfN_of_wfE (t : RawXml) (h : wfE t = true) : wfN t = true := by
  cases t with
  | text s =>
    rw [wfE] at h
    cases h
  | elem tag attrs ch =>
    rw [wfE] at h
    exact h

/-- `skipWs` keeps a serialised element intact. -/
theorem skipWs_serE_elem (tag : List Char)
    (attrs : List (List Char × List Char)) (ch : List RawXml) :
    skipWs (serE (.elem tag attrs ch)) = serE (.elem tag attrs ch) := by
  rw [serE]
  simp only [List.cons_append]
  exact skipWs_cons_of_not _ (by decide)

mutual

/-- Trees outside a namespace contain no elements counted in it. -/
theorem countQ_of_noNs (uri ln : String) (x : Xml) :
    noNsElem uri x = true → countQ (some uri) ln x = 0 := by
  cases x with
  | text s =>
    intro h
    rw [countQ]
  | elem ns2 n2 attrs ch =>
    intro h
    rw [noNsElem] at h
    simp only [Bool.and_eq_true, decide_eq_true_eq] at h
    rw [countQ]
    rw [countQList_of_noNs uri ln ch h.2]
    simp [h.1]

/-- Forest version of `countQ_of_noNs`. -/
theorem countQList_of_noNs (uri ln : String) (xs : List Xml) :
    noNsElemList uri xs = true → countQList (some uri) ln xs = 0 := by
  cases xs with
  | nil =>
    intro h
    rw [countQList]
  | cons x rest =>
    intro h
    rw [noNsElemList] at h
    simp only [Bool.and_eq_true] at h
    rw [countQList, countQ_of_noNs uri ln x h.1,
      countQList_of_noNs uri ln rest h.2]

end

/-- `stripDecl` is the identity on a serialised element. -/
theorem stripDecl_serE (t : RawXml) (h : wfE t = true) :
    stripDecl (serE t) = some (serE t) := by
  obtain ⟨tag, attrs, ch, rfl⟩ := wfE_elem_shape t h
  obtain ⟨d, t', rfl⟩ : ∃ d t', tag = d :: t' := by
    rw [wfE, wfN] at h
    simp only [Bool.and_eq_true, Bool.not_eq_true'] at h
    cases tag with
    | nil => simp at h
    | cons d t' => exact ⟨d, t', rfl⟩
  have hd : isNameChar d = true := by
    rw [wfE, wfN] at h
    simp only [Bool.and_eq_true] at h
    exact List.all_eq_true.mp h.1.1.2 d (by simp)
  rw [serE]
  simp only [List.cons_append]
  rw [stripDecl]
  intro r hr
  simp only [List.cons.injEq] at hr
  exact absurd hd (by rw [hr.2.1]; decide)

/-- Parsing the serialisation of a well-formed element is exactly its
namespace resolution. -/
theorem etFromstring_serE (t : RawXml) (h : wfE t = true) :
    etFromstring (String.mk (serE t)) = resolveR [] none t := by
  have hfuel : needE t ≤ (serE t).length + 1 := by
    have := needE_le_length t (wfN_of_wfE t h)
    omega
  have hrt := pElement_roundtrip t ((serE t).length + 1) [] h hfuel
  rw [List.append_nil] at hrt
  have hskip : List.dropWhile pySpace (serE t) = serE t := by
    obtain ⟨tag, attrs, ch, rfl⟩ := wfE_elem_shape t h
    exact skipWs_serE_elem tag attrs ch
  rw [etFromstring]
  rw [show (String.mk (serE t)).data = serE t from rfl]
  rw [pDocumentRaw, stripDecl_serE t h]
  simp [hskip, hrt, skipWs]

/-- Inversion of one `pAttrs` step. -/
theorem pAttrs_inv (f : Nat) (cs : List Char)
    (r : List (List Char × List Char) × List Char)
    (h : pAttrs (f + 1) cs = some r) :
    (∃ c l, skipWs cs = c :: l ∧ (c = '/' ∨ c = '>') ∧ r = ([], skipWs cs)) ∨
    (∃ n r2 v r4 more r5, takeName (skipWs cs) = (n, '=' :: '"' :: r2) ∧
      n ≠ [] ∧ takeTill '"' r2 = (v, '"' :: r4) ∧
      pAttrs f r4 = some (more, r5) ∧ r = ((n, v) :: more, r5)) := by
  rw [pAttrs] at h
  split at h
  · rename_i tail heq
    exact Or.inl ⟨'/', tail, heq, Or.inl rfl, (Option.some.inj h).symm⟩
  · rename_i tail heq
    exact Or.inl ⟨'>', tail, heq, Or.inr rfl, (Option.some.inj h).symm⟩
  · simp only [] at h
    split at h
    · exact Option.noConfusion h
    rename_i hne
    split at h
    · rename_i r2 heq2
      split at h
      · rename_i r4 heq4
        rcases hrec : pAttrs f r4 with _ | ⟨more, r5⟩
        · rw [hrec] at h
          exact Option.noConfusion h
        · rw [hrec] at h
          refine Or.inr ⟨(takeName (skipWs cs)).1, r2, (takeTill '"' r2).1,
            r4, more, r5, ?_, hne, ?_, hrec, ?_⟩
          · rw [← heq2]
          · rw [← heq4]
          · exact (Option.some.inj h).symm
      · exact Option.noConfusion h
    · exact Option.noConfusion h

/-- A lone `<` never parses. -/
theorem pElement_lt_nil : ∀ f, pElement f ['<'] = none := by
  intro f
  cases f with
  | zero => rfl
  | succ f => rfl

/-- Inversion of one `pContent` step. -/
theorem pContent_inv (f : Nat) (cs : List Char) (r : List RawXml × List Char)
    (h : pContent (f + 1) cs = some r) :
    (∃ u, cs = '<' :: '/' :: u ∧ r = ([], cs)) ∨
    (∃ d l e r1 es r2, cs = '<' :: d :: l ∧ d ≠ '/' ∧
      pElement f cs = some (e, r1) ∧ pContent f r1 = some (es, r2) ∧
      r = (e :: es, r2)) ∨
    (∃ c l es r2, cs = c :: l ∧ c ≠ '<' ∧
      pContent f (takeTill '<' cs).2 = some (es, r2) ∧
      r = (.text (takeTill '<' cs).1 :: es, r2)) := by
  rw [pContent.eq_def] at h
  split at h
  · omega
  rename_i cs2 d1 d2 fuel heqf
  obtain rfl : f = fuel := by omega
  split at h
  · exact Option.noConfusion h
  · rename_i cs0 tail
    exact Or.inl ⟨tail, rfl, (Option.some.inj h).symm⟩
  · rename_i cs0 tail hne2
    rcases hE : pElement f ('<' :: tail) with _ | ⟨e, r1⟩
    · simp only [hE] at h
      exact Option.noConfusion h
    simp only [hE] at h
    rcases hC : pContent f r1 with _ | ⟨es, r2⟩
    · simp only [hC] at h
      exact Option.noConfusion h
    simp only [hC] at h
    cases tail with
    | nil =>
      rw [pElement_lt_nil] at hE
      exact Option.noConfusion hE
    | cons d l =>
      refine Or.inr (Or.inl ⟨d, l, e, r1, es, r2, rfl, ?_, rfl, hC,
        (Option.some.inj h).symm⟩)
      intro hd
      exact hne2 l (by rw [hd])
  · rename_i cs0 c tail hne2 hne3
    rcases hC : pContent f (takeTill '<' (c :: tail)).2 with _ | ⟨es, r2⟩
    · simp only [hC] at h
      exact Option.noConfusion h
    simp only [hC] at h
    refine Or.inr (Or.inr ⟨c, tail, es, r2, rfl, fun hc => hne3 hc, rfl,
      (Option.some.inj h).symm⟩)

/-- Inversion of one `pElement` step. -/
theorem pElement_inv (f : Nat) (cs : List Char) (r : RawXml × List Char)
    (h : pElement (f + 1) cs = some r) :
    ∃ cs1, cs = '<' :: cs1 ∧ (takeName cs1).1 ≠ [] ∧
      ∃ attrs r2, pAttrs f (takeName cs1).2 = some (attrs, r2) ∧
        ((∃ r3, r2 = '/' :: '>' :: r3 ∧
           r = (.elem (takeName cs1).1 attrs [], r3)) ∨
         (∃ r3 ch r5 r7, r2 = '>' :: r3 ∧
           pContent f r3 = some (ch, '<' :: '/' :: r5) ∧
           (takeName r5).1 = (takeName cs1).1 ∧
           skipWs (takeName r5).2 = '>' :: r7 ∧
           r = (.elem (takeName cs1).1 attrs ch, r7))) := by
  rw [pElement.eq_def] at h
  split at h
  · omega
  · rename_i cs0 d1 d2 fuel heqf
    obtain rfl : f = fuel := by omega
    split at h
    · rename_i cs1
      simp only [] at h
      split at h
      · exact Option.noConfusion h
      rename_i hne
      rcases hA : pAttrs f (takeName cs1).2 with _ | ⟨attrs, r2⟩
      · simp only [hA] at h
        exact Option.noConfusion h
      simp only [hA] at h
      refine ⟨cs1, rfl, hne, attrs, r2, hA, ?_⟩
      split at h
      · rename_i r3
        exact Or.inl ⟨r3, rfl, (Option.some.inj h).symm⟩
      · rename_i r3
        rcases hC : pContent f r3 with _ | ⟨ch, r4⟩
        · simp only [hC] at h
          exact Option.noConfusion h
        simp only [hC] at h
        split at h
        · rename_i r5
          split at h
          swap
          · exact Option.noConfusion h
          rename_i heqname
          split at h
          · rename_i r7 heq7
            exact Or.inr ⟨r3, ch, r5, r7, rfl, hC, heqname, heq7,
              (Option.some.inj h).symm⟩
          · exact Option.noConfusion h
        · exact Option.noConfusion h
      · exact Option.noConfusion h
    · exact Option.noConfusion h


/-- Forward evaluation: `pAttrs` stops at `/` or `>`. -/
theorem pAttrs_build_stop (f : Nat) (cs : List Char) (c : Char)
    (l : List Char) (hws : skipWs cs = c :: l) (hc : c = '/' ∨ c = '>') :
    pAttrs (f + 1) cs = some ([], skipWs cs) := by
  rw [pAttrs, hws]
  rcases hc with rfl | rfl <;> rfl

/-- Forward evaluation: `pAttrs` consumes one `name="value"` pair. -/
theorem pAttrs_build_cons (f : Nat) (cs n r2 v r4 : List Char)
    (more : List (List Char × List Char)) (r5 : List Char)
    (hn : takeName (skipWs cs) = (n, '=' :: '"' :: r2)) (hne : n ≠ [])
    (hv : takeTill '"' r2 = (v, '"' :: r4))
    (hrec : pAttrs f r4 = some (more, r5)) :
    pAttrs (f + 1) cs = some ((n, v) :: more, r5) := by
  obtain ⟨c, l, hws, hcn⟩ : ∃ c l, skipWs cs = c :: l ∧ isNameChar c = true := by
    rcases hws : skipWs cs with _ | ⟨c, l⟩
    · rw [hws] at hn
      cases hn
    · by_cases hcn : isNameChar c
      · exact ⟨c, l, rfl, hcn⟩
      · rw [hws, takeName] at hn
        simp only [hcn, if_false] at hn
        cases hn
        exact absurd rfl hne
  rw [pAttrs, hws]
  rw [hws] at hn
  split
  · rename_i heq
    exfalso
    simp only [List.cons.injEq] at heq
    exact absurd hcn (by rw [heq.1]; decide)
  · rename_i heq
    exfalso
    simp only [List.cons.injEq] at heq
    exact absurd hcn (by rw [heq.1]; decide)
  · simp [hn, hne, hv, hrec]

/-- Forward evaluation: `pContent` stops at a closing tag. -/
theorem pContent_build_stop (f : Nat) (u : List Char) :
    pContent (f + 1) ('<' :: '/' :: u) = some ([], '<' :: '/' :: u) := rfl

/-- Forward evaluation: `pContent` consumes one child element. -/
theorem pContent_build_elem (f : Nat) (d : Char) (l : List Char)
    (e : RawXml) (r1 : List Char) (es : List RawXml) (r2 : List Char)
    (hd : d ≠ '/')
    (hE : pElement f ('<' :: d :: l) = some (e, r1))
    (hC : pContent f r1 = some (es, r2)) :
    pContent (f + 1) ('<' :: d :: l) = some (e :: es, r2) := by
  rw [pContent.eq_def]
  split
  · omega
  rename_i d1 d2 fuel heqf
  obtain rfl : f = fuel := by omega
  split
  · rename_i heq
    exact absurd heq (by simp)
  · rename_i tail heq
    exfalso
    simp only [List.cons.injEq, true_and] at heq
    exact hd heq.1
  · simp [hE, hC]
  · rename_i cs0 hd0 tl0 hne2 hne3 heq
    exfalso
    apply hne3
    injection heq with h1 h2
    exact h1.symm

/-- Forward evaluation: `pContent` consumes one text run. -/
theorem pContent_build_text (f : Nat) (c : Char) (l : List Char)
    (es : List RawXml) (r2 : List Char) (hc : c ≠ '<')
    (hC : pContent f (takeTill '<' (c :: l)).2 = some (es, r2)) :
    pContent (f + 1) (c :: l) =
      some (.text (takeTill '<' (c :: l)).1 :: es, r2) := by
  rw [pContent.eq_def]
  split
  · omega
  rename_i d1 d2 fuel heqf
  obtain rfl : f = fuel := by omega
  split
  · rename_i heq
    exact absurd heq (by simp)
  · rename_i tail heq
    exfalso
    simp only [List.cons.injEq] at heq
    exact hc heq.1
  · rename_i tail heq
    exfalso
    simp only [List.cons.injEq] at heq
    exact hc heq.1
  · rename_i cs0 hd0 tl0 hne2 hne3 heq
    cases heq
    simp [hC]

/-- Forward evaluation: `pElement` on a self-closing element. -/
theorem pElement_build1 (f : Nat) (cs1 : List Char)
    (attrs : List (List Char × List Char)) (r3 : List Char)
    (hne : (takeName cs1).1 ≠ [])
    (hA : pAttrs f (takeName cs1).2 = some (attrs, '/' :: '>' :: r3)) :
    pElement (f + 1) ('<' :: cs1) =
      some (.elem (takeName cs1).1 attrs [], r3) := by
  rw [pElement.eq_def]
  split
  · omega
  rename_i d1 d2 fuel heqf
  obtain rfl : f = fuel := by omega
  split
  · rename_i cs2 heq
    injection heq with h1 h2
    subst h2
    simp [hne, hA]
  · rename_i hne2
    exact absurd rfl (hne2 cs1)

/-- Forward evaluation: `pElement` on an expanded element. -/
theorem pElement_build2 (f : Nat) (cs1 : List Char)
    (attrs : List (List Char × List Char)) (r3 : List Char)
    (ch : List RawXml) (r5 r7 : List Char)
    (hne : (takeName cs1).1 ≠ [])
    (hA : pAttrs f (takeName cs1).2 = some (attrs, '>' :: r3))
    (hC : pContent f r3 = some (ch, '<' :: '/' :: r5))
    (heqname : (takeName r5).1 = (takeName cs1).1)
    (hskip : skipWs (takeName r5).2 = '>' :: r7) :
    pElement (f + 1) ('<' :: cs1) =
      some (.elem (takeName cs1).1 attrs ch, r7) := by
  rw [pElement.eq_def]
  split
  · omega
  rename_i d1 d2 fuel heqf
  obtain rfl : f = fuel := by omega
  split
  · rename_i cs2 heq
    injection heq with h1 h2
    subst h2
    simp [hne, hA, hC, heqname, hskip]
  · rename_i hne2
    exact absurd rfl (hne2 cs1)

/-- Fuel monotonicity of the three parsers, one step. -/
theorem parserMono : ∀ f : Nat,
    (∀ cs r, pElement f cs = some r → pElement (f + 1) cs = some r) ∧
    (∀ cs r, pContent f cs = some r → pContent (f + 1) cs = some r) ∧
    (∀ cs r, pAttrs f cs = some r → pAttrs (f + 1) cs = some r) := by
  intro f
  induction f with
  | zero =>
    refine ⟨?_, ?_, ?_⟩ <;> intro cs r h <;>
      simp [pElement, pContent, pAttrs] at h
  | succ f ih =>
    obtain ⟨ihE, ihC, ihA⟩ := ih
    refine ⟨?_, ?_, ?_⟩
    · intro cs r h
      obtain ⟨cs1, rfl, hne, attrs, r2, hA, hbr⟩ := pElement_inv f cs r h
      rcases hbr with ⟨r3, rfl, rfl⟩ |
        ⟨r3, ch, r5, r7, rfl, hC, heqname, hskip, rfl⟩
      · exact pElement_build1 (f + 1) cs1 attrs r3 hne (ihA _ _ hA)
      · exact pElement_build2 (f + 1) cs1 attrs r3 ch r5 r7 hne
          (ihA _ _ hA) (ihC _ _ hC) heqname hskip
    · intro cs r h
      rcases pContent_inv f cs r h with ⟨u, rfl, rfl⟩ |
        ⟨d, l, e, r1, es, r2, rfl, hd, hE, hC, rfl⟩ |
        ⟨c, l, es, r2, rfl, hc, hC, rfl⟩
      · exact pContent_build_stop (f + 1) u
      · exact pContent_build_elem (f + 1) d l e r1 es r2 hd
          (ihE _ _ hE) (ihC _ _ hC)
      · exact pContent_build_text (f + 1) c l es r2 hc (ihC _ _ hC)
    · intro cs r h
      rcases pAttrs_inv f cs r h with ⟨c, l, hws, hc, rfl⟩ |
        ⟨n, r2, v, r4, more, r5, hn, hne, hv, hrec, rfl⟩
      · exact pAttrs_build_stop (f + 1) cs c l hws hc
      · exact pAttrs_build_cons (f + 1) cs n r2 v r4 more r5 hn hne hv
          (ihA _ _ hrec)

/-- Fuel monotonicity of `pContent`. -/
theorem pContent_mono (f f2 : Nat) (cs : List Char)
    (r : List RawXml × List Char) (hle : f ≤ f2)
    (h : pContent f cs = some r) : pContent f2 cs = some r := by
  induction f2 with
  | zero =>
    obtain rfl : f = 0 := by omega
    exact h
  | succ f2 ih =>
    rcases Nat.lt_or_ge f (f2 + 1) with hlt | hge
    · exact (parserMono f2).2.1 cs r (ih (by omega))
    · obtain rfl : f = f2 + 1 := by omega
      exact h

/-- Fuel monotonicity of `pAttrs`. -/
theorem pAttrs_mono (f f2 : Nat) (cs : List Char)
    (r : List (List Char × List Char) × List Char) (hle : f ≤ f2)
    (h : pAttrs f cs = some r) : pAttrs f2 cs = some r := by
  induction f2 with
  | zero =>
    obtain rfl : f = 0 := by omega
    exact h
  | succ f2 ih =>
    rcases Nat.lt_or_ge f (f2 + 1) with hlt | hge
    · exact (parserMono f2).2.2 cs r (ih (by omega))
    · obtain rfl : f = f2 + 1 := by omega
      exact h

/-- `pContent` never succeeds on empty input. -/
theorem pContent_nil : ∀ f, pContent f [] = none := by
  intro f
  cases f with
  | zero => rfl
  | succ f => rfl

end AnsibleSoap
